import Mathlib

set_option maxHeartbeats 1000000
set_option maxRecDepth 40000

/-!
A shallow embedding of the diff engine of `src/document_comparison.py` and of
the parts of CPython's `difflib` standard library that it calls:
`SequenceMatcher` (constructed with `isjunk=None`, so the junk set `bjunk`
consists exactly of the "popular" elements, which is empty unless `autojunk`
is set and `len(b) >= 200`), `get_opcodes`, `get_grouped_opcodes` and
`unified_diff`.

Modelling conventions: Python machine integers are `Nat` (all quantities here
are non-negative and no overflow is possible); the per-row dictionary `j2len`
of `find_longest_match` is a total function `Nat → Nat` with default value `0`
(mirroring `dict.get(key, 0)`); Python `while` loops are encoded with an
explicit fuel argument chosen so that the fuel can never run out before the
loop guard fails; Python floats (used only for the percent metric in `main`)
are modelled as `ℚ` (the concrete values of interest, `0`, `50`, `100`, are
exactly representable either way); Python strings are `String` when used as
atomic lines, and `List Char` in the model of `normalize`, which has to look
inside them.
-/

namespace DiffSpec

/-- The four opcode tags of `difflib.SequenceMatcher.get_opcodes`
(the Python strings `"equal"`, `"replace"`, `"delete"`, `"insert"`). -/
inductive Tag where
  | equal
  | replace
  | delete
  | insert
deriving DecidableEq, Repr

/-- An opcode `(tag, i1, i2, j1, j2)` as produced by `get_opcodes`. -/
abbrev Op := Tag × Nat × Nat × Nat × Nat

/-- The running best match `(besti, bestj, bestsize)` of `find_longest_match`. -/
structure FLMState where
  besti : Nat
  bestj : Nat
  bestsize : Nat
deriving DecidableEq, Repr

variable {α : Type} [DecidableEq α]

/-- All positions of `x` in `b`, in increasing order: the entry `b2j[x]` built
by difflib's `__chain_b` before junk purging (`b2j.get(x, [])` yields `[]` for
an `x` that does not occur in `b`). -/
def b2jRaw (b : List α) (x : α) : List Nat :=
  (List.range b.length).filter (fun j => decide (b.get? j = some x))

/-- difflib `__chain_b` "popular" test: with `autojunk` and `len(b) >= 200`,
elements occurring in more than `len(b) // 100 + 1` positions are popular and
are purged from `b2j`.  Both `SequenceMatcher` call sites of the repository
pass `isjunk=None`, so the junk set `bjunk` is exactly this popular set. -/
def popular (aj : Bool) (b : List α) (x : α) : Bool :=
  aj && decide (200 ≤ b.length) && decide (b.length / 100 + 1 < (b2jRaw b x).length)

/-- `b2j[x]` after the popular purge of `__chain_b`. -/
def b2j (aj : Bool) (b : List α) (x : α) : List Nat :=
  if popular aj b x then [] else b2jRaw b x

/-- `b2j.get(a[i], nothing)` in `find_longest_match` (an out-of-range `i` never
occurs on reachable inputs; it is modelled as the empty list). -/
def b2jAt (aj : Bool) (a b : List α) (i : Nat) : List Nat :=
  match a.get? i with
  | some x => b2j aj b x
  | none => []

/-- `isbjunk(b[j])`, i.e. `self.bjunk.__contains__(b[j])`, at index `j`
(out of range is modelled as `false`; reachable uses are in range). -/
def junkAt (aj : Bool) (b : List α) (j : Nat) : Bool :=
  match b.get? j with
  | some y => popular aj b y
  | none => false

/-- `a[ia] == b[ib]` with both indices in range (out of range is modelled as
`false`; reachable uses are in range). -/
def eqAt (a b : List α) (ia ib : Nat) : Bool :=
  match a.get? ia, b.get? ib with
  | some x, some y => decide (x = y)
  | _, _ => false

/-- The inner loop `for j in b2j.get(a[i], nothing)` of `find_longest_match`:
`continue` on `j < blo`, `break` on `j >= bhi` (the position lists of `b2j`
are ascending), then `k = newj2len[j] = j2len.get(j-1, 0) + 1` and a best
update when `k > bestsize` (with `besti, bestj = i-k+1, j-k+1`).  Note that
for `j = 0` Python looks up `j2len.get(-1, 0) = 0`, hence the `j = 0` guard. -/
def innerLoop (i blo bhi : Nat) (j2len : Nat → Nat) :
    List Nat → (Nat → Nat) → FLMState → (Nat → Nat) × FLMState
  | [], newj2len, st => (newj2len, st)
  | j :: js, newj2len, st =>
    if j < blo then innerLoop i blo bhi j2len js newj2len st
    else if bhi ≤ j then (newj2len, st)
    else
      let k := (if j = 0 then 0 else j2len (j - 1)) + 1
      let newj2len' := fun j' => if j' = j then k else newj2len j'
      let st' := if st.bestsize < k then FLMState.mk (i + 1 - k) (j + 1 - k) k else st
      innerLoop i blo bhi j2len js newj2len' st'

/-- The outer loop `for i in range(alo, ahi)` of `find_longest_match`; each row
starts a fresh `newj2len = {}` and installs it as `j2len` afterwards.  The fuel
is the number of remaining rows, `ahi - alo` at the call site. -/
def flmOuter (aj : Bool) (a b : List α) (blo bhi : Nat) :
    Nat → Nat → (Nat → Nat) → FLMState → FLMState
  | 0, _, _, st => st
  | fuel + 1, i, j2len, st =>
    let p := innerLoop i blo bhi j2len (b2jAt aj a b i) (fun _ => 0) st
    flmOuter aj a b blo bhi fuel (i + 1) p.1 p.2

/-- The two leftward extension `while` loops of `find_longest_match`, which
extend the best match by matching elements whose junk status equals
`junkFlag` (`false` for the first loop, `true` for the final junk sweep).
Each iteration decreases `besti` by one and the guard requires `alo < besti`,
so fuel `st.besti` can never be exhausted before the guard fails. -/
def extendLeft (aj : Bool) (a b : List α) (alo blo : Nat) (junkFlag : Bool) :
    Nat → FLMState → FLMState
  | 0, st => st
  | fuel + 1, st =>
    if alo < st.besti ∧ blo < st.bestj ∧ junkAt aj b (st.bestj - 1) = junkFlag ∧
        eqAt a b (st.besti - 1) (st.bestj - 1) = true then
      extendLeft aj a b alo blo junkFlag fuel
        (FLMState.mk (st.besti - 1) (st.bestj - 1) (st.bestsize + 1))
    else st

/-- The two rightward extension `while` loops of `find_longest_match`
(`bestsize += 1` while the next pair matches and has junk status `junkFlag`).
Each iteration increases `bestsize` and the guard requires
`besti + bestsize < ahi`, so fuel `ahi - (besti + bestsize)` suffices. -/
def extendRight (aj : Bool) (a b : List α) (ahi bhi : Nat) (junkFlag : Bool) :
    Nat → FLMState → FLMState
  | 0, st => st
  | fuel + 1, st =>
    if st.besti + st.bestsize < ahi ∧ st.bestj + st.bestsize < bhi ∧
        junkAt aj b (st.bestj + st.bestsize) = junkFlag ∧
        eqAt a b (st.besti + st.bestsize) (st.bestj + st.bestsize) = true then
      extendRight aj a b ahi bhi junkFlag fuel
        (FLMState.mk st.besti st.bestj (st.bestsize + 1))
    else st

/-- `SequenceMatcher.find_longest_match(alo, ahi, blo, bhi)`: the dynamic
programming pass, then the non-junk extension loops, then the junk extension
loops (the latter are no-ops whenever the junk set is empty, in particular
whenever `autojunk` is off). -/
def find_longest_match (aj : Bool) (a b : List α) (alo ahi blo bhi : Nat) : FLMState :=
  let st1 := flmOuter aj a b blo bhi (ahi - alo) alo (fun _ => 0) (FLMState.mk alo blo 0)
  let st2 := extendLeft aj a b alo blo false st1.besti st1
  let st3 := extendRight aj a b ahi bhi false (ahi - (st2.besti + st2.bestsize)) st2
  let st4 := extendLeft aj a b alo blo true st3.besti st3
  extendRight aj a b ahi bhi true (ahi - (st4.besti + st4.bestsize)) st4

/-- The divide-and-conquer of `get_matching_blocks`.  CPython drains an
explicit work queue and sorts the collected blocks at the end; because every
block found in the left sub-window `(alo, i, blo, j)` ends strictly before the
pivot `(i, j, k)` on both coordinates, and every block of the right sub-window
`(i+k, ahi, j+k, bhi)` starts strictly after it, emitting the blocks in
recursion order *is* the sorted order, which is what this function does.  One
unit of fuel is spent per recursion level, and each level strictly decreases
`(ahi - alo) + (bhi - blo)` (the pivot has size at least 1), so the top-level
fuel `a.length + b.length + 1` can never be exhausted. -/
def mbrFuel (aj : Bool) (a b : List α) :
    Nat → Nat → Nat → Nat → Nat → List (Nat × Nat × Nat)
  | 0, _, _, _, _ => []
  | fuel + 1, alo, ahi, blo, bhi =>
    let m := find_longest_match aj a b alo ahi blo bhi
    if m.bestsize = 0 then []
    else
      (if alo < m.besti ∧ blo < m.bestj then mbrFuel aj a b fuel alo m.besti blo m.bestj
       else [])
        ++ (m.besti, m.bestj, m.bestsize) ::
          (if m.besti + m.bestsize < ahi ∧ m.bestj + m.bestsize < bhi then
            mbrFuel aj a b fuel (m.besti + m.bestsize) ahi (m.bestj + m.bestsize) bhi
          else [])

/-- The second phase of `get_matching_blocks`: collapse adjacent blocks
(`i1 + k1 == i2 and j1 + k1 == j2`), emitting a pending block only when its
size `k1` is nonzero (the loop starts from the dummy pending block
`(0, 0, 0)`). -/
def collapseAux : Nat → Nat → Nat → List (Nat × Nat × Nat) → List (Nat × Nat × Nat)
  | i1, j1, k1, [] => if k1 = 0 then [] else [(i1, j1, k1)]
  | i1, j1, k1, (i2, j2, k2) :: rest =>
    if i1 + k1 = i2 ∧ j1 + k1 = j2 then collapseAux i1 j1 (k1 + k2) rest
    else (if k1 = 0 then [] else [(i1, j1, k1)]) ++ collapseAux i2 j2 k2 rest

/-- `SequenceMatcher.get_matching_blocks()`: divide and conquer over the full
windows, collapse adjacent blocks, and append the sentinel
`(len(a), len(b), 0)`. -/
def get_matching_blocks (aj : Bool) (a b : List α) : List (Nat × Nat × Nat) :=
  collapseAux 0 0 0 (mbrFuel aj a b (a.length + b.length + 1) 0 a.length 0 b.length)
    ++ [(a.length, b.length, 0)]

/-- The loop body of `get_opcodes` over the matching blocks: emit a
`replace`/`delete`/`insert` opcode for the gap `a[i:ai]` vs `b[j:bj]` when it
is nonempty, then an `equal` opcode for the block itself when its size is
nonzero, advancing `(i, j)` to `(ai + size, bj + size)`. -/
def opcodesAux : Nat → Nat → List (Nat × Nat × Nat) → List Op
  | _, _, [] => []
  | i, j, (ai, bj, size) :: rest =>
    (if i < ai ∧ j < bj then [(Tag.replace, i, ai, j, bj)]
     else if i < ai then [(Tag.delete, i, ai, j, bj)]
     else if j < bj then [(Tag.insert, i, ai, j, bj)]
     else [])
      ++ (if size = 0 then [] else [(Tag.equal, ai, ai + size, bj, bj + size)])
      ++ opcodesAux (ai + size) (bj + size) rest

/-- `SequenceMatcher.get_opcodes()` for a matcher built with `autojunk = aj`
and `isjunk = None`.  The repository's `side_by_side_diff` and
`difference_summary` use `aj = false` (they pass `autojunk=False`);
`difflib.unified_diff` constructs its own matcher with the default
`autojunk=True`. -/
def get_opcodes (aj : Bool) (a b : List α) : List Op :=
  opcodesAux 0 0 (get_matching_blocks aj a b)

/-- Python slice `l[i1:i2]` (for the index ranges occurring here, with
`0 ≤ i1 ≤ i2`). -/
def slice (l : List α) (i1 i2 : Nat) : List α := (l.take i2).drop i1

/-- `side_by_side_diff` from `src/document_comparison.py`: one `(tag, left,
right)` row per line position of each opcode, padding the shorter block with
`""`; `max_len = max(len(left_block), len(right_block)) or 1`. -/
def side_by_side_diff (a_lines b_lines : List String) : List (Tag × String × String) :=
  (get_opcodes false a_lines b_lines).flatMap (fun op =>
    match op with
    | (tag, i1, i2, j1, j2) =>
      let left_block := slice a_lines i1 i2
      let right_block := slice b_lines j1 j2
      let m := max left_block.length right_block.length
      let max_len := if m = 0 then 1 else m
      (List.range max_len).map (fun k =>
        (tag, left_block.getD k "", right_block.getD k "")))

/-- The `stats` dictionary `{"equal": _, "replace": _, "delete": _,
"insert": _}` of `difference_summary`. -/
structure Stats where
  equal : Nat
  replace : Nat
  delete : Nat
  insert : Nat
deriving DecidableEq, Repr

/-- The per-opcode update of `difference_summary`'s loop. -/
def statsStep (s : Stats) (op : Op) : Stats :=
  match op with
  | (Tag.equal, i1, i2, _, _) => Stats.mk (s.equal + (i2 - i1)) s.replace s.delete s.insert
  | (Tag.replace, i1, i2, j1, j2) =>
      Stats.mk s.equal (s.replace + max (i2 - i1) (j2 - j1)) s.delete s.insert
  | (Tag.delete, i1, i2, _, _) => Stats.mk s.equal s.replace (s.delete + (i2 - i1)) s.insert
  | (Tag.insert, _, _, j1, j2) => Stats.mk s.equal s.replace s.delete (s.insert + (j2 - j1))

/-- `difference_summary(base, other)` from `src/document_comparison.py`. -/
def difference_summary (base other : List String) : Stats :=
  (get_opcodes false base other).foldl statsStep (Stats.mk 0 0 0 0)

/-- `sum(stats.values())`. -/
def statsSum (s : Stats) : Nat := s.equal + s.replace + s.delete + s.insert

/-- `x or 1` on a Python integer. -/
def orOne (x : Nat) : Nat := if x = 0 then 1 else x

/-- The percent metric computed in `main` (`src/document_comparison.py`,
lines 184-186): `total = sum(stats.values()) or 1`,
`changed = total - stats["equal"]`, `pct = 100 * changed / total`. -/
def main_pct (stats : Stats) : ℚ :=
  let total : ℚ := (orOne (statsSum stats) : ℕ)
  let changed : ℚ := total - (stats.equal : ℕ)
  100 * changed / total

/-- `get_grouped_opcodes`' fix-up of a leading `equal` opcode:
`codes[0] = tag, max(i1, i2-n), i2, max(j1, j2-n), j2`. -/
def adjustFirst (n : Nat) : List Op → List Op
  | [] => []
  | (t, i1, i2, j1, j2) :: rest =>
    if t = Tag.equal then (t, max i1 (i2 - n), i2, max j1 (j2 - n), j2) :: rest
    else (t, i1, i2, j1, j2) :: rest

/-- `get_grouped_opcodes`' fix-up of a trailing `equal` opcode:
`codes[-1] = tag, i1, min(i2, i1+n), j1, min(j2, j1+n)`. -/
def adjustLast (n : Nat) : List Op → List Op
  | [] => []
  | [(t, i1, i2, j1, j2)] =>
    if t = Tag.equal then [(t, i1, min i2 (i1 + n), j1, min j2 (j1 + n))]
    else [(t, i1, i2, j1, j2)]
  | c :: rest => c :: adjustLast n rest

/-- The grouping loop of `get_grouped_opcodes`: a `group` accumulator; an
`equal` opcode longer than `2 n` closes the current group with the first `n`
context lines and opens a new group with the last `n`; at the end the pending
group is yielded unless it is empty or a single `equal` opcode. -/
def groupSplit (n : Nat) : List Op → List Op → List (List Op)
  | group, [] =>
    match group with
    | [] => []
    | [c] => if c.1 = Tag.equal then [] else [[c]]
    | _ => [group]
  | group, (t, i1, i2, j1, j2) :: rest =>
    if t = Tag.equal ∧ n + n < i2 - i1 then
      (group ++ [(t, i1, min i2 (i1 + n), j1, min j2 (j1 + n))]) ::
        groupSplit n [(t, max i1 (i2 - n), i2, max j1 (j2 - n), j2)] rest
    else groupSplit n (group ++ [(t, i1, i2, j1, j2)]) rest

/-- `SequenceMatcher.get_grouped_opcodes(n)` for the matcher built by
`difflib.unified_diff` (hence `autojunk=True`); when there are no opcodes at
all, the placeholder `[("equal", 0, 1, 0, 1)]` is used. -/
def get_grouped_opcodes (a b : List String) (n : Nat) : List (List Op) :=
  let codes0 := get_opcodes true a b
  let codes1 := if codes0 = [] then [(Tag.equal, 0, 1, 0, 1)] else codes0
  groupSplit n [] (adjustLast n (adjustFirst n codes1))

/-- `difflib._format_range_unified(start, stop)`. -/
def format_range_unified (start stop : Nat) : String :=
  let beginning := start + 1
  let length := stop - start
  if length = 1 then toString beginning
  else toString (if length = 0 then start else beginning) ++ "," ++ toString length

/-- The lines `unified_diff` yields for one opcode of a group: ` `-prefixed
context for `equal`, `-`-prefixed left lines for `replace`/`delete`,
`+`-prefixed right lines for `replace`/`insert`. -/
def opLines (a b : List String) (op : Op) : List String :=
  match op with
  | (t, i1, i2, j1, j2) =>
    if t = Tag.equal then (slice a i1 i2).map (fun line => " " ++ line)
    else
      (if t = Tag.replace ∨ t = Tag.delete then
        (slice a i1 i2).map (fun line => "-" ++ line)
      else [])
        ++ (if t = Tag.replace ∨ t = Tag.insert then
          (slice b j1 j2).map (fun line => "+" ++ line)
        else [])

/-- The `@@` hunk header of a group followed by its per-opcode lines. -/
def groupLines (a b : List String) (g : List Op) : List String :=
  let first := g.headD (Tag.equal, 0, 0, 0, 0)
  let last := g.getLastD (Tag.equal, 0, 0, 0, 0)
  ("@@ -" ++ format_range_unified first.2.1 last.2.2.1 ++ " +"
      ++ format_range_unified first.2.2.2.1 last.2.2.2.2 ++ " @@")
    :: g.flatMap (opLines a b)

def unified_diff_lines (a b : List String) (a_name b_name : String) : List String :=
  match get_grouped_opcodes a b 3 with
  | [] => []
  | groups =>
    ("--- " ++ a_name) :: ("+++ " ++ b_name) :: groups.flatMap (groupLines a b)

/-- `unified_diff(a_lines, b_lines, a_name, b_name)` from
`src/document_comparison.py`: the generated lines joined with `"\n"`. -/
def unified_diff (a_lines b_lines : List String) (a_name b_name : String) : String :=
  String.intercalate "\n" (unified_diff_lines a_lines b_lines a_name b_name)

/-! ### The `normalize` line normaliser

`normalize` (lines 41-53 of `src/document_comparison.py`) works *inside*
Python strings, so here strings are modelled as `List Char`.  Python's
whitespace and line-boundary sets are modelled over the characters relevant
to the embedding (the ASCII whitespace plus the Unicode whitespace code
points below; every line-boundary character of `str.splitlines` is also
whitespace for `str.split`/`str.strip`, which is the property the proofs
use).  `str.lower` is modelled as ASCII case folding per character. -/

/-- Characters treated as whitespace by `str.split()` / `str.strip()`. -/
def pySpaceChars : List Char :=
  [' ', '\t', '\n', '\x0b', '\x0c', '\r', '\x1c', '\x1d', '\x1e', '\x1f', '\x85',
    '\u00A0', '\u2028', '\u2029']

def isPySpace (c : Char) : Bool := decide (c ∈ pySpaceChars)

/-- Line boundaries of `str.splitlines()` (besides the two-character boundary
`"\r\n"`, handled separately). -/
def boundaryChars : List Char :=
  ['\n', '\r', '\x0b', '\x0c', '\x1c', '\x1d', '\x1e', '\x85', '\u2028', '\u2029']

def isBoundary (c : Char) : Bool := decide (c ∈ boundaryChars)

/-- `str.splitlines()` (keepends false): `acc` is the current line, reversed;
`"\r\n"` is a single boundary; a last line is emitted only if nonempty (no
trailing empty line). -/
def splitlinesAux : List Char → List Char → List (List Char)
  | [], acc => if acc = [] then [] else [acc.reverse]
  | '\r' :: '\n' :: cs, acc => acc.reverse :: splitlinesAux cs []
  | c :: cs, acc =>
    if isBoundary c then acc.reverse :: splitlinesAux cs []
    else splitlinesAux cs (c :: acc)

def splitlines (s : List Char) : List (List Char) := splitlinesAux s []

/-- `str.strip()`: drop leading and trailing whitespace. -/
def pystrip (s : List Char) : List Char :=
  ((s.dropWhile isPySpace).reverse.dropWhile isPySpace).reverse

/-- Worker for `str.split()` (no separator): split on whitespace runs,
dropping empty words. -/
def splitWsAux : List Char → List Char → List (List Char)
  | [], acc => if acc = [] then [] else [acc.reverse]
  | c :: cs, acc =>
    if isPySpace c then
      if acc = [] then splitWsAux cs [] else acc.reverse :: splitWsAux cs []
    else splitWsAux cs (c :: acc)

/-- `str.split()` with no arguments. -/
def pysplit (s : List Char) : List (List Char) := splitWsAux s []

/-- `sep.join(parts)` for Python strings. -/
def pyjoin (sep : List Char) : List (List Char) → List Char
  | [] => []
  | [w] => w
  | w :: ws => w ++ sep ++ pyjoin sep ws

/-- `" ".join(words)`. -/
def joinSp (ws : List (List Char)) : List Char := pyjoin [' '] ws

/-- Per-character ASCII case folding (`str.lower` restricted to ASCII). -/
def lowerChar (c : Char) : Char :=
  if 65 ≤ c.toNat ∧ c.toNat ≤ 90 then Char.ofNat (c.toNat + 32) else c

/-- `str.lower()`. -/
def pylower (s : List Char) : List Char := s.map lowerChar

/-- The per-line transform of `normalize`:
`s = " ".join(raw.strip().split())`, then `s.lower()`. -/
def cleanLine (raw : List Char) : List Char := pylower (joinSp (pysplit (pystrip raw)))

/-- `normalize(text)` from `src/document_comparison.py`: split into lines,
collapse whitespace, drop lines that became empty, lowercase the rest. -/
def normalize (text : List Char) : List (List Char) :=
  (splitlines text).filterMap (fun raw =>
    let s := joinSp (pysplit (pystrip raw))
    if s = [] then none else some (pylower s))

/-! ### Specification predicates and spec-modelled definitions -/

/-- Modelled from the spec (§4.3): the derived metric
`percent-different = 100 × (replace + delete + insert) / total`, with
`total = equal + replace + delete + insert` clamped to a minimum of 1. -/
def percent_different_spec (stats : Stats) : ℚ :=
  100 * ((stats.replace : ℚ) + (stats.delete : ℚ) + (stats.insert : ℚ))
    / (max (statsSum stats) 1 : ℕ)

/-- Modelled from the spec (§4.4, side-by-side form): for each span, exactly
`max(left-block length, right-block length)` rows, pairing left and right
lines positionally and padding the shorter block with blank entries. -/
def side_by_side_spec (a_lines b_lines : List String) : List (Tag × String × String) :=
  (get_opcodes false a_lines b_lines).flatMap (fun op =>
    match op with
    | (tag, i1, i2, j1, j2) =>
      let left_block := slice a_lines i1 i2
      let right_block := slice b_lines j1 j2
      (List.range (max left_block.length right_block.length)).map (fun k =>
        (tag, left_block.getD k "", right_block.getD k "")))

/-- The basic window invariant on `find_longest_match`'s running state:
`alo ≤ besti ≤ besti + bestsize ≤ ahi` and `blo ≤ bestj ≤ bestj + bestsize ≤ bhi`. -/
def StOK (alo ahi blo bhi : Nat) (st : FLMState) : Prop :=
  alo ≤ st.besti ∧ st.besti + st.bestsize ≤ ahi ∧
    blo ≤ st.bestj ∧ st.bestj + st.bestsize ≤ bhi

/-- A chain of matching blocks: starting from position `(alo, blo)`, each
block `(i, j, k)` has `alo ≤ i`, `blo ≤ j` and positive size, and the chain
continues from `(i + k, j + k)`, ending at or before `(ahi, bhi)`. -/
def BlocksChain (ahi bhi : Nat) : Nat → Nat → List (Nat × Nat × Nat) → Prop
  | alo, blo, [] => alo ≤ ahi ∧ blo ≤ bhi
  | alo, blo, (i, j, k) :: rest =>
    alo ≤ i ∧ blo ≤ j ∧ 1 ≤ k ∧ BlocksChain ahi bhi (i + k) (j + k) rest

/-- The shape of an opcode's ranges according to its tag: `equal` spans are
nonempty with equal lengths on both sides, `replace` spans are nonempty on
both sides, `delete` spans have an empty right range, and `insert` spans an
empty left range. -/
def TagOK : Op → Prop
  | (Tag.equal, i1, i2, j1, j2) => i1 < i2 ∧ i2 - i1 = j2 - j1
  | (Tag.replace, i1, i2, j1, j2) => i1 < i2 ∧ j1 < j2
  | (Tag.delete, i1, i2, j1, j2) => i1 < i2 ∧ j1 = j2
  | (Tag.insert, i1, i2, j1, j2) => i1 = i2 ∧ j1 < j2

/-- The partition invariant for an opcode list starting at position `(i, j)`:
every opcode's left range starts exactly where the previous one ended (and
likewise on the right), ranges are well formed, stay within `[0, la)` and
`[0, lb)`, satisfy `TagOK`, and the final position is exactly `(la, lb)`.
Starting at `(0, 0)` this says that the left ranges partition `[0, la)` and
the right ranges partition `[0, lb)`, in increasing order, with no gaps and
no overlaps. -/
def OpChain (la lb : Nat) : Nat → Nat → List Op → Prop
  | i, j, [] => i = la ∧ j = lb
  | i, j, (t, i1, i2, j1, j2) :: rest =>
    i1 = i ∧ j1 = j ∧ i1 ≤ i2 ∧ j1 ≤ j2 ∧ i2 ≤ la ∧ j2 ≤ lb ∧
      TagOK (t, i1, i2, j1, j2) ∧ OpChain la lb i2 j2 rest

/-- The per-opcode number of lines that `difference_summary` adds to its
stats dictionary (and, as proved below, the number of rows `side_by_side_diff`
emits for that opcode). -/
def opContribution (op : Op) : Nat :=
  match op with
  | (Tag.equal, i1, i2, _, _) => i2 - i1
  | (Tag.replace, i1, i2, j1, j2) => max (i2 - i1) (j2 - j1)
  | (Tag.delete, i1, i2, _, _) => i2 - i1
  | (Tag.insert, _, _, j1, j2) => j2 - j1

/-- Monotone, pairwise-disjoint left ranges bounded by `la`, starting at or
after `pos`. -/
def LeftChain (la : Nat) : Nat → List Op → Prop
  | pos, [] => pos ≤ la
  | pos, op :: rest => pos ≤ op.2.1 ∧ op.2.1 ≤ op.2.2.1 ∧ LeftChain la op.2.2.1 rest

/-- `e` has the same tag as `sp` and both its ranges are subranges of `sp`'s. -/
def SubSpan (sp e : Op) : Prop :=
  sp.1 = e.1 ∧ sp.2.1 ≤ e.2.1 ∧ e.2.2.1 ≤ sp.2.2.1 ∧
    sp.2.2.2.1 ≤ e.2.2.2.1 ∧ e.2.2.2.2 ≤ sp.2.2.2.2

/-- The non-`equal` opcodes of a list. -/
def nonEqualOps (ops : List Op) : List Op :=
  ops.filter (fun op => decide (op.1 ≠ Tag.equal))

/-- All opcode fragments of the grouped opcodes, in output order. -/
def groupedFlat (a b : List String) : List Op :=
  (get_grouped_opcodes a b 3).flatMap id

/-- How the grouping loop of `get_grouped_opcodes` rewrites one opcode: an
`equal` opcode longer than `2 n` becomes its two context fragments, every
other opcode is kept as is. -/
def splitOne (n : Nat) (op : Op) : List Op :=
  match op with
  | (t, i1, i2, j1, j2) =>
    if t = Tag.equal ∧ n + n < i2 - i1 then
      [(t, i1, min i2 (i1 + n), j1, min j2 (j1 + n)),
        (t, max i1 (i2 - n), i2, max j1 (j2 - n), j2)]
    else [(t, i1, i2, j1, j2)]

/-- A unified-diff context line: it carries a `' '` prefix (hunk headers start
with `'@'`, the file headers with `'-'` and `'+'`). -/
def isContextLine (l : String) : Bool := decide (l.data.head? = some ' ')

/-- The number of context lines in a unified-diff line list. -/
def contextCount (lines : List String) : Nat := lines.countP isContextLine

/-! ## The window invariant of `find_longest_match` -/

theorem innerLoop_ok (i blo bhi alo ahi : Nat) (old : Nat → Nat)
    (haloi : alo ≤ i) (hi : i < ahi)
    (hold : ∀ j, old j ≤ min (i - alo) (j + 1 - blo)) :
    ∀ (js : List Nat) (new : Nat → Nat) (st : FLMState),
      StOK alo ahi blo bhi st →
      (∀ j, new j ≤ min (i + 1 - alo) (j + 1 - blo)) →
      StOK alo ahi blo bhi (innerLoop i blo bhi old js new st).2 ∧
        ∀ j, (innerLoop i blo bhi old js new st).1 j ≤ min (i + 1 - alo) (j + 1 - blo) := by
  intro js
  induction js with
  | nil =>
    intro new st hst hnew
    exact ⟨hst, hnew⟩
  | cons j js ih =>
    intro new st hst hnew
    by_cases h1 : j < blo
    · simpa [innerLoop, h1] using ih new st hst hnew
    · by_cases h2 : bhi ≤ j
      · simp only [innerLoop, if_neg h1, if_pos h2]
        exact ⟨hst, hnew⟩
      · have hub : (if j = 0 then 0 else old (j - 1)) ≤ min (i - alo) (j - blo) := by
          by_cases hj0 : j = 0
          · rw [if_pos hj0]
            exact Nat.zero_le _
          · rw [if_neg hj0]
            have := hold (j - 1)
            omega
        have hk : (if j = 0 then 0 else old (j - 1)) + 1 ≤ min (i + 1 - alo) (j + 1 - blo) := by
          omega
        simp only [innerLoop, if_neg h1, if_neg h2]
        apply ih
        · obtain ⟨hb1, hb2, hb3, hb4⟩ := hst
          by_cases hup : st.bestsize < (if j = 0 then 0 else old (j - 1)) + 1
          · simp only [if_pos hup]
            refine ⟨?_, ?_, ?_, ?_⟩ <;> simp only [StOK] <;> omega
          · simp only [if_neg hup]
            exact ⟨hb1, hb2, hb3, hb4⟩
        · intro j'
          by_cases hj' : j' = j
          · simp only [if_pos hj', hj']
            exact hk
          · simp only [if_neg hj']
            exact hnew j'

theorem flmOuter_ok (aj : Bool) (a b : List α) (blo bhi alo ahi : Nat) :
    ∀ (fuel i : Nat) (j2len : Nat → Nat) (st : FLMState),
      alo ≤ i → i + fuel ≤ ahi →
      (∀ j, j2len j ≤ min (i - alo) (j + 1 - blo)) →
      StOK alo ahi blo bhi st →
      StOK alo ahi blo bhi (flmOuter aj a b blo bhi fuel i j2len st) := by
  intro fuel
  induction fuel with
  | zero =>
    intro i j2len st _ _ _ hst
    simpa [flmOuter] using hst
  | succ fuel ih =>
    intro i j2len st h1 h2 h3 hst
    have hi : i < ahi := by omega
    obtain ⟨hstok, hbnd⟩ :=
      innerLoop_ok i blo bhi alo ahi j2len h1 hi h3 (b2jAt aj a b i) (fun _ => 0) st hst
        (fun j => by simp)
    simp only [flmOuter]
    exact ih (i + 1) _ _ (by omega) (by omega)
      (fun j => by have := hbnd j; omega) hstok

theorem extendLeft_ok (aj : Bool) (a b : List α) (alo blo ahi bhi : Nat) (junkFlag : Bool) :
    ∀ (fuel : Nat) (st : FLMState), StOK alo ahi blo bhi st →
      StOK alo ahi blo bhi (extendLeft aj a b alo blo junkFlag fuel st) := by
  intro fuel
  induction fuel with
  | zero => intro st hst; simpa [extendLeft] using hst
  | succ fuel ih =>
    intro st hst
    simp only [extendLeft]
    split
    · rename_i hguard
      apply ih
      obtain ⟨h1, h2, h3, h4⟩ := hst
      obtain ⟨g1, g2, -, -⟩ := hguard
      refine ⟨?_, ?_, ?_, ?_⟩ <;> simp only [StOK] <;> omega
    · exact hst

theorem extendRight_ok (aj : Bool) (a b : List α) (alo blo ahi bhi : Nat) (junkFlag : Bool) :
    ∀ (fuel : Nat) (st : FLMState), StOK alo ahi blo bhi st →
      StOK alo ahi blo bhi (extendRight aj a b ahi bhi junkFlag fuel st) := by
  intro fuel
  induction fuel with
  | zero => intro st hst; simpa [extendRight] using hst
  | succ fuel ih =>
    intro st hst
    simp only [extendRight]
    split
    · rename_i hguard
      apply ih
      obtain ⟨h1, h2, h3, h4⟩ := hst
      obtain ⟨g1, g2, -, -⟩ := hguard
      refine ⟨?_, ?_, ?_, ?_⟩ <;> simp only [StOK] <;> omega
    · exact hst

/-- The result of `find_longest_match` lies within the requested window. -/
theorem find_longest_match_ok (aj : Bool) (a b : List α) (alo ahi blo bhi : Nat)
    (h1 : alo ≤ ahi) (h2 : blo ≤ bhi) :
    StOK alo ahi blo bhi (find_longest_match aj a b alo ahi blo bhi) := by
  have hinit : StOK alo ahi blo bhi (FLMState.mk alo blo 0) := by
    refine ⟨le_refl _, ?_, le_refl _, ?_⟩ <;> simp <;> omega
  have h3 := flmOuter_ok aj a b blo bhi alo ahi (ahi - alo) alo (fun _ => 0)
    (FLMState.mk alo blo 0) (le_refl _) (by omega) (fun j => by simp) hinit
  unfold find_longest_match
  apply extendRight_ok
  apply extendLeft_ok
  apply extendRight_ok
  apply extendLeft_ok
  exact h3

/-! ## The partition invariant of `get_matching_blocks` and `get_opcodes` -/

theorem blocksChain_le {ahi bhi : Nat} :
    ∀ {L : List (Nat × Nat × Nat)} {alo blo : Nat},
      BlocksChain ahi bhi alo blo L → alo ≤ ahi ∧ blo ≤ bhi := by
  intro L
  induction L with
  | nil => intro alo blo h; exact h
  | cons blk rest ih =>
    intro alo blo h
    obtain ⟨i, j, k⟩ := blk
    obtain ⟨h1, h2, h3, h4⟩ := h
    have := ih h4
    constructor <;> omega

theorem blocksChain_mono {ahi bhi : Nat} :
    ∀ {L : List (Nat × Nat × Nat)} {alo blo p q : Nat},
      BlocksChain ahi bhi p q L → alo ≤ p → blo ≤ q → BlocksChain ahi bhi alo blo L := by
  intro L
  induction L with
  | nil =>
    intro alo blo p q h h1 h2
    exact ⟨le_trans h1 h.1, le_trans h2 h.2⟩
  | cons blk rest _ =>
    intro alo blo p q h h1 h2
    obtain ⟨i, j, k⟩ := blk
    obtain ⟨g1, g2, g3, g4⟩ := h
    exact ⟨le_trans h1 g1, le_trans h2 g2, g3, g4⟩

theorem blocksChain_append {ahi bhi : Nat} :
    ∀ {L1 L2 : List (Nat × Nat × Nat)} {alo blo m1 m2 : Nat},
      BlocksChain m1 m2 alo blo L1 → BlocksChain ahi bhi m1 m2 L2 →
      BlocksChain ahi bhi alo blo (L1 ++ L2) := by
  intro L1
  induction L1 with
  | nil =>
    intro L2 alo blo m1 m2 h1 h2
    exact blocksChain_mono h2 h1.1 h1.2
  | cons blk rest ih =>
    intro L2 alo blo m1 m2 h1 h2
    obtain ⟨i, j, k⟩ := blk
    obtain ⟨g1, g2, g3, g4⟩ := h1
    exact ⟨g1, g2, g3, ih g4 h2⟩

theorem mbrFuel_chain (aj : Bool) (a b : List α) :
    ∀ (fuel alo ahi blo bhi : Nat), alo ≤ ahi → blo ≤ bhi →
      BlocksChain ahi bhi alo blo (mbrFuel aj a b fuel alo ahi blo bhi) := by
  intro fuel
  induction fuel with
  | zero =>
    intro alo ahi blo bhi h1 h2
    exact ⟨h1, h2⟩
  | succ fuel ih =>
    intro alo ahi blo bhi h1 h2
    have hok := find_longest_match_ok aj a b alo ahi blo bhi h1 h2
    obtain ⟨k1, k2, k3, k4⟩ := hok
    simp only [mbrFuel]
    split
    · exact ⟨h1, h2⟩
    · rename_i hne
      set m := find_longest_match aj a b alo ahi blo bhi with hm
      have hL1 : BlocksChain m.besti m.bestj alo blo
          (if alo < m.besti ∧ blo < m.bestj then mbrFuel aj a b fuel alo m.besti blo m.bestj
           else []) := by
        split
        · rename_i hg
          exact ih alo m.besti blo m.bestj (le_of_lt hg.1) (le_of_lt hg.2)
        · exact ⟨k1, k3⟩
      have hL2 : BlocksChain ahi bhi (m.besti + m.bestsize) (m.bestj + m.bestsize)
          (if m.besti + m.bestsize < ahi ∧ m.bestj + m.bestsize < bhi then
            mbrFuel aj a b fuel (m.besti + m.bestsize) ahi (m.bestj + m.bestsize) bhi
          else []) := by
        split
        · rename_i hg
          exact ih _ _ _ _ (le_of_lt hg.1) (le_of_lt hg.2)
        · exact ⟨k2, k4⟩
      exact blocksChain_append hL1 ⟨le_refl _, le_refl _, by omega, hL2⟩

theorem collapseAux_chain {ahi bhi : Nat} :
    ∀ (L : List (Nat × Nat × Nat)) (i1 j1 k1 alo blo : Nat), alo ≤ i1 → blo ≤ j1 →
      BlocksChain ahi bhi (i1 + k1) (j1 + k1) L →
      BlocksChain ahi bhi alo blo (collapseAux i1 j1 k1 L) := by
  intro L
  induction L with
  | nil =>
    intro i1 j1 k1 alo blo h1 h2 hc
    obtain ⟨hc1, hc2⟩ := hc
    simp only [collapseAux]
    split
    · exact ⟨by omega, by omega⟩
    · exact ⟨h1, h2, by omega, hc1, hc2⟩
  | cons blk rest ih =>
    intro i1 j1 k1 alo blo h1 h2 hc
    obtain ⟨i2, j2, k2⟩ := blk
    obtain ⟨g1, g2, g3, g4⟩ := hc
    simp only [collapseAux]
    split
    · rename_i hadj
      exact ih i1 j1 (k1 + k2) alo blo h1 h2 (by rw [show i1 + (k1 + k2) = i2 + k2 by omega,
        show j1 + (k1 + k2) = j2 + k2 by omega]; exact g4)
    · split
      · rename_i hk10
        exact blocksChain_mono (ih i2 j2 k2 i2 j2 (le_refl _) (le_refl _) g4)
          (by omega) (by omega)
      · rename_i hk1
        refine List.singleton_append ▸ ⟨h1, h2, by omega, ?_⟩
        exact blocksChain_mono (ih i2 j2 k2 i2 j2 (le_refl _) (le_refl _) g4)
          (by omega) (by omega)

theorem opcodesAux_chain {la lb : Nat} :
    ∀ (L : List (Nat × Nat × Nat)) (i j : Nat), BlocksChain la lb i j L →
      OpChain la lb i j (opcodesAux i j (L ++ [(la, lb, 0)])) := by
  intro L
  induction L with
  | nil =>
    intro i j hc
    obtain ⟨h1, h2⟩ := hc
    simp only [List.nil_append, opcodesAux]
    by_cases c1 : i < la ∧ j < lb
    · rw [if_pos c1]
      exact ⟨rfl, rfl, by omega, by omega, le_refl _, le_refl _, ⟨c1.1, c1.2⟩, rfl, rfl⟩
    · rw [if_neg c1]
      by_cases c2 : i < la
      · rw [if_pos c2]
        have hj : j = lb := by omega
        exact ⟨rfl, rfl, by omega, by omega, le_refl _, by omega, ⟨c2, hj⟩, rfl, rfl⟩
      · rw [if_neg c2]
        by_cases c3 : j < lb
        · rw [if_pos c3]
          have hi : i = la := by omega
          exact ⟨rfl, rfl, by omega, by omega, by omega, le_refl _, ⟨hi, c3⟩, rfl, rfl⟩
        · rw [if_neg c3]
          exact ⟨by omega, by omega⟩
  | cons blk rest ih =>
    intro i j hc
    obtain ⟨ai, bj, k⟩ := blk
    obtain ⟨g1, g2, g3, g4⟩ := hc
    have hbnd := blocksChain_le g4
    have hrest := ih (ai + k) (bj + k) g4
    have hkne : ¬ k = 0 := by omega
    have heq : OpChain la lb ai bj
        ((Tag.equal, ai, ai + k, bj, bj + k) :: opcodesAux (ai + k) (bj + k)
          (rest ++ [(la, lb, 0)])) :=
      ⟨rfl, rfl, by omega, by omega, by omega, by omega, ⟨by omega, by omega⟩, hrest⟩
    simp only [List.cons_append, opcodesAux, if_neg hkne]
    by_cases c1 : i < ai ∧ j < bj
    · rw [if_pos c1]
      exact ⟨rfl, rfl, by omega, by omega, by omega, by omega, ⟨c1.1, c1.2⟩, heq⟩
    · rw [if_neg c1]
      by_cases c2 : i < ai
      · rw [if_pos c2]
        have hj : j = bj := by omega
        exact ⟨rfl, rfl, by omega, by omega, by omega, by omega, ⟨c2, hj⟩, hj ▸ heq⟩
      · rw [if_neg c2]
        have hi : i = ai := by omega
        by_cases c3 : j < bj
        · rw [if_pos c3]
          exact ⟨rfl, rfl, by omega, by omega, by omega, by omega, ⟨hi, c3⟩, hi ▸ heq⟩
        · rw [if_neg c3]
          have hj : j = bj := by omega
          simpa [hi, hj] using heq

/-- The opcodes of any comparison satisfy the partition invariant. -/
theorem get_opcodes_chain (aj : Bool) (a b : List α) :
    OpChain a.length b.length 0 0 (get_opcodes aj a b) := by
  unfold get_opcodes get_matching_blocks
  exact opcodesAux_chain _ 0 0
    (collapseAux_chain _ 0 0 0 0 0 (le_refl _) (le_refl _)
      (mbrFuel_chain aj a b _ 0 a.length 0 b.length (Nat.zero_le _) (Nat.zero_le _)))

theorem opChain_mem {la lb : Nat} :
    ∀ {ops : List Op} {i j : Nat}, OpChain la lb i j ops →
      ∀ op ∈ ops, TagOK op ∧ op.2.1 ≤ op.2.2.1 ∧ op.2.2.1 ≤ la ∧
        op.2.2.2.1 ≤ op.2.2.2.2 ∧ op.2.2.2.2 ≤ lb := by
  intro ops
  induction ops with
  | nil => intro i j _ op hop; cases hop
  | cons o rest ih =>
    intro i j hc op hop
    obtain ⟨t, i1, i2, j1, j2⟩ := o
    obtain ⟨h1, h2, h3, h4, h5, h6, h7, h8⟩ := hc
    rcases List.mem_cons.mp hop with rfl | hop
    · exact ⟨h7, h3, h5, h4, h6⟩
    · exact ih h8 op hop

theorem opChain_sum {la lb : Nat} :
    ∀ {ops : List Op} {i j : Nat}, OpChain la lb i j ops →
      i + (ops.map (fun op => op.2.2.1 - op.2.1)).sum = la ∧
        j + (ops.map (fun op => op.2.2.2.2 - op.2.2.2.1)).sum = lb := by
  intro ops
  induction ops with
  | nil =>
    intro i j hc
    obtain ⟨h1, h2⟩ := hc
    simp [h1, h2]
  | cons o rest ih =>
    intro i j hc
    obtain ⟨t, i1, i2, j1, j2⟩ := o
    obtain ⟨h1, h2, h3, h4, h5, h6, h7, h8⟩ := hc
    obtain ⟨s1, s2⟩ := ih h8
    simp only [List.map_cons, List.sum_cons]
    constructor <;> omega

/-! ## Generic list helpers -/

theorem list_flatMap_congr {β γ : Type} :
    ∀ (l : List β) (f g : β → List γ), (∀ x ∈ l, f x = g x) → l.flatMap f = l.flatMap g := by
  intro l f g
  induction l with
  | nil => intro _; rfl
  | cons x xs ih =>
    intro h
    simp only [List.flatMap_cons]
    rw [h x (by simp), ih (fun y hy => h y (by simp [hy]))]

theorem list_length_flatMap {β γ : Type} :
    ∀ (l : List β) (f : β → List γ),
      (l.flatMap f).length = (l.map (fun x => (f x).length)).sum := by
  intro l f
  induction l with
  | nil => rfl
  | cons x xs ih => simp [List.flatMap_cons, ih]

theorem list_sum_map_le {β : Type} :
    ∀ (l : List β) (f g : β → Nat), (∀ x ∈ l, f x ≤ g x) →
      (l.map f).sum ≤ (l.map g).sum := by
  intro l f g
  induction l with
  | nil => intro _; exact le_refl _
  | cons x xs ih =>
    intro h
    simp only [List.map_cons, List.sum_cons]
    exact Nat.add_le_add (h x (by simp)) (ih (fun y hy => h y (by simp [hy])))

theorem list_sum_map_congr {β : Type} :
    ∀ (l : List β) (f g : β → Nat), (∀ x ∈ l, f x = g x) →
      (l.map f).sum = (l.map g).sum := by
  intro l f g
  induction l with
  | nil => intro _; rfl
  | cons x xs ih =>
    intro h
    simp only [List.map_cons, List.sum_cons]
    rw [h x (by simp), ih (fun y hy => h y (by simp [hy]))]

theorem list_sum_map_add {β : Type} :
    ∀ (l : List β) (f g : β → Nat),
      (l.map (fun x => f x + g x)).sum = (l.map f).sum + (l.map g).sum := by
  intro l f g
  induction l with
  | nil => rfl
  | cons x xs ih =>
    simp only [List.map_cons, List.sum_cons, ih]
    omega

theorem slice_length {β : Type} (l : List β) (i1 i2 : Nat) (h1 : i1 ≤ i2)
    (h2 : i2 ≤ l.length) : (slice l i1 i2).length = i2 - i1 := by
  simp only [slice, List.length_drop, List.length_take]
  omega

/-! ## Side-by-side rows and the summary totals -/

theorem side_by_side_eq_spec (A B : List String) :
    side_by_side_diff A B = side_by_side_spec A B := by
  unfold side_by_side_diff side_by_side_spec
  apply list_flatMap_congr
  intro op hop
  obtain ⟨t, i1, i2, j1, j2⟩ := op
  obtain ⟨htag, hi12, hila, hj12, hjlb⟩ :=
    opChain_mem (get_opcodes_chain false A B) _ hop
  have hll : (slice A i1 i2).length = i2 - i1 := slice_length _ _ _ hi12 hila
  have hrr : (slice B j1 j2).length = j2 - j1 := slice_length _ _ _ hj12 hjlb
  have hm : ¬ max (slice A i1 i2).length (slice B j1 j2).length = 0 := by
    rw [hll, hrr]
    cases t <;> simp only [TagOK] at htag <;> omega
  simp only [if_neg hm]

theorem stats_foldl_sum :
    ∀ (ops : List Op) (s : Stats),
      statsSum (ops.foldl statsStep s) = statsSum s + (ops.map opContribution).sum := by
  intro ops
  induction ops with
  | nil => intro s; simp
  | cons op rest ih =>
    intro s
    have hstep : statsSum (statsStep s op) = statsSum s + opContribution op := by
      obtain ⟨t, i1, i2, j1, j2⟩ := op
      cases t <;> simp only [statsStep, statsSum, opContribution] <;> omega
    simp only [List.foldl_cons, List.map_cons, List.sum_cons, ih, hstep]
    omega

theorem rows_length (A B : List String) :
    (side_by_side_diff A B).length = ((get_opcodes false A B).map opContribution).sum := by
  rw [side_by_side_eq_spec]
  unfold side_by_side_spec
  rw [list_length_flatMap]
  apply list_sum_map_congr
  intro op hop
  obtain ⟨t, i1, i2, j1, j2⟩ := op
  obtain ⟨htag, hi12, hila, hj12, hjlb⟩ :=
    opChain_mem (get_opcodes_chain false A B) _ hop
  simp only [List.length_map, List.length_range]
  rw [slice_length _ _ _ hi12 hila, slice_length _ _ _ hj12 hjlb]
  cases t <;> simp only [TagOK] at htag <;> simp only [opContribution] <;> omega

theorem stats_foldl_split :
    ∀ (ops : List Op) (s : Stats),
      ops.foldl statsStep s = Stats.mk
        (s.equal + (((ops.filter (fun op => decide (op.1 = Tag.equal))).map
          (fun op => op.2.2.1 - op.2.1)).sum))
        (s.replace + (((ops.filter (fun op => decide (op.1 = Tag.replace))).map
          (fun op => max (op.2.2.1 - op.2.1) (op.2.2.2.2 - op.2.2.2.1))).sum))
        (s.delete + (((ops.filter (fun op => decide (op.1 = Tag.delete))).map
          (fun op => op.2.2.1 - op.2.1)).sum))
        (s.insert + (((ops.filter (fun op => decide (op.1 = Tag.insert))).map
          (fun op => op.2.2.2.2 - op.2.2.2.1)).sum)) := by
  intro ops
  induction ops with
  | nil => intro s; simp
  | cons op rest ih =>
    intro s
    obtain ⟨t, i1, i2, j1, j2⟩ := op
    cases t <;>
      simp only [List.foldl_cons, ih, statsStep, List.filter_cons, decide_eq_true_eq,
        if_pos, if_neg, List.map_cons, List.sum_cons] <;>
      simp <;>
      omega

/-! ## Claim theorems on alignment spans, rows and summary counts -/

/-- C1: for every pair of line sequences `A` and `B`, the alignment span list
produced for them (the opcodes consumed by `side_by_side_diff` and
`difference_summary`, whose matcher is built with `autojunk=False`) partitions
both sequences: starting from `(0, 0)`, each span's left range begins exactly
where the previous one ended and the right ranges likewise, all ranges are
well formed and within bounds, and the final position is exactly
`(len A, len B)` — no gaps and no overlaps on either side. -/
theorem C1_span_partition (A B : List String) :
    OpChain A.length B.length 0 0 (get_opcodes false A B) :=
  get_opcodes_chain false A B

/-- C5: for every pair of line sequences, `side_by_side_diff` emits, for each
alignment span, exactly `max(left-block length, right-block length)` rows,
pairing left and right lines positionally and padding the shorter block with
empty strings, preserving within-span order: it coincides with
`side_by_side_spec`, the row list the spec describes (in particular the
code's `or 1` fallback never fires, because no span has two empty blocks). -/
theorem C5_side_by_side_rows (A B : List String) :
    side_by_side_diff A B = side_by_side_spec A B :=
  side_by_side_eq_spec A B

/-- C3: `difference_summary` counts, per span, the left-range length for
`equal` and `delete` spans, the right-range length for `insert` spans, and
`max(left-range length, right-range length)` for `replace` spans; and on
`A = ["line one", "line two"]`, `B = ["line one", "line three"]` it returns
`{equal: 1, replace: 1, delete: 0, insert: 0}`. -/
theorem C3_summary_counting :
    (∀ A B : List String,
      difference_summary A B = Stats.mk
        ((((get_opcodes false A B).filter (fun op => decide (op.1 = Tag.equal))).map
          (fun op => op.2.2.1 - op.2.1)).sum)
        ((((get_opcodes false A B).filter (fun op => decide (op.1 = Tag.replace))).map
          (fun op => max (op.2.2.1 - op.2.1) (op.2.2.2.2 - op.2.2.2.1))).sum)
        ((((get_opcodes false A B).filter (fun op => decide (op.1 = Tag.delete))).map
          (fun op => op.2.2.1 - op.2.1)).sum)
        ((((get_opcodes false A B).filter (fun op => decide (op.1 = Tag.insert))).map
          (fun op => op.2.2.2.2 - op.2.2.2.1)).sum)) ∧
      difference_summary ["line one", "line two"] ["line one", "line three"]
        = Stats.mk 1 1 0 0 := by
  constructor
  · intro A B
    unfold difference_summary
    rw [stats_foldl_split]
    simp
  · decide

/-- C10: for every pair of line sequences, the four counts of
`difference_summary` sum to the number of rows of `side_by_side_diff` (each
span contributes `max(left-block length, right-block length)` to both), and
consequently that sum lies between `max (len A) (len B)` and
`len A + len B`. -/
theorem C10_counts_equal_rows (A B : List String) :
    statsSum (difference_summary A B) = (side_by_side_diff A B).length ∧
      max A.length B.length ≤ statsSum (difference_summary A B) ∧
      statsSum (difference_summary A B) ≤ A.length + B.length := by
  have hsum : statsSum (difference_summary A B)
      = ((get_opcodes false A B).map opContribution).sum := by
    unfold difference_summary
    rw [stats_foldl_sum]
    simp [statsSum]
  have hchain := get_opcodes_chain false A B
  obtain ⟨hA, hB⟩ := opChain_sum hchain
  have hmem := opChain_mem hchain
  have hle1 : ((get_opcodes false A B).map (fun op => op.2.2.1 - op.2.1)).sum
      ≤ ((get_opcodes false A B).map opContribution).sum := by
    apply list_sum_map_le
    intro op hop
    obtain ⟨t, i1, i2, j1, j2⟩ := op
    have htag := (hmem _ hop).1
    cases t <;> simp only [TagOK] at htag <;> simp only [opContribution] <;> omega
  have hle2 : ((get_opcodes false A B).map (fun op => op.2.2.2.2 - op.2.2.2.1)).sum
      ≤ ((get_opcodes false A B).map opContribution).sum := by
    apply list_sum_map_le
    intro op hop
    obtain ⟨t, i1, i2, j1, j2⟩ := op
    have htag := (hmem _ hop).1
    cases t <;> simp only [TagOK] at htag <;> simp only [opContribution] <;> omega
  have hub : ((get_opcodes false A B).map opContribution).sum
      ≤ ((get_opcodes false A B).map
        (fun op => (op.2.2.1 - op.2.1) + (op.2.2.2.2 - op.2.2.2.1))).sum := by
    apply list_sum_map_le
    intro op hop
    obtain ⟨t, i1, i2, j1, j2⟩ := op
    cases t <;> simp only [opContribution] <;> omega
  rw [list_sum_map_add] at hub
  refine ⟨by rw [hsum, rows_length], ?_, ?_⟩ <;> rw [hsum] <;> omega

/-! ## Empty-sequence edge cases and the percent metric -/

theorem b2jAt_nil_b (aj : Bool) (a : List α) (i : Nat) : b2jAt aj a ([] : List α) i = [] := by
  unfold b2jAt b2j b2jRaw
  cases a.get? i <;> simp

theorem flmOuter_nil_b (aj : Bool) (a : List α) (blo bhi : Nat) :
    ∀ (fuel i : Nat) (j2len : Nat → Nat) (st : FLMState),
      flmOuter aj a ([] : List α) blo bhi fuel i j2len st = st := by
  intro fuel
  induction fuel with
  | zero => intro i j2len st; rfl
  | succ fuel ih =>
    intro i j2len st
    simp only [flmOuter, b2jAt_nil_b, innerLoop]
    exact ih _ _ _

theorem extendRight_bhi_zero (aj : Bool) (a b : List α) (ahi : Nat) (junkFlag : Bool) :
    ∀ (fuel : Nat) (st : FLMState), extendRight aj a b ahi 0 junkFlag fuel st = st := by
  intro fuel
  induction fuel with
  | zero => intro st; rfl
  | succ fuel _ =>
    intro st
    simp only [extendRight]
    rw [if_neg]
    rintro ⟨-, h2, -⟩
    omega

theorem find_longest_match_nil_b (aj : Bool) (a : List α) (ahi : Nat) :
    find_longest_match aj a ([] : List α) 0 ahi 0 0 = FLMState.mk 0 0 0 := by
  unfold find_longest_match
  rw [flmOuter_nil_b]
  simp only [extendLeft, extendRight_bhi_zero]

theorem get_opcodes_nil_right (aj : Bool) (x : α) (xs : List α) :
    get_opcodes aj (x :: xs) ([] : List α)
      = [(Tag.delete, 0, (x :: xs).length, 0, 0)] := by
  have hmbr : mbrFuel aj (x :: xs) ([] : List α) ((x :: xs).length + ([] : List α).length + 1)
      0 (x :: xs).length 0 ([] : List α).length = [] := by
    simp only [mbrFuel, List.length_nil]
    rw [find_longest_match_nil_b]
    simp
  have hblocks : get_matching_blocks aj (x :: xs) ([] : List α)
      = [((x :: xs).length, 0, 0)] := by
    unfold get_matching_blocks
    rw [hmbr]
    rfl
  unfold get_opcodes
  rw [hblocks]
  simp only [opcodesAux]
  rw [if_neg (by omega : ¬ ((0 : Nat) < (x :: xs).length ∧ (0 : Nat) < 0))]
  rw [if_pos (by simp : (0 : Nat) < (x :: xs).length)]
  simp [opcodesAux]

theorem get_opcodes_nil_left (aj : Bool) (y : α) (ys : List α) :
    get_opcodes aj ([] : List α) (y :: ys)
      = [(Tag.insert, 0, 0, 0, (y :: ys).length)] := by
  have hblocks : get_matching_blocks aj ([] : List α) (y :: ys)
      = [(0, (y :: ys).length, 0)] := rfl
  unfold get_opcodes
  rw [hblocks]
  simp only [opcodesAux]
  rw [if_neg (by omega : ¬ ((0 : Nat) < 0 ∧ (0 : Nat) < (y :: ys).length))]
  rw [if_neg (by omega : ¬ (0 : Nat) < 0)]
  rw [if_pos (by simp : (0 : Nat) < (y :: ys).length)]
  simp [opcodesAux]

/-- The percent computation of `main` agrees with the spec's derived metric
whenever the summary has a nonzero total. -/
theorem main_pct_eq_spec_of_total_ne_zero (s : Stats) (h : statsSum s ≠ 0) :
    main_pct s = percent_different_spec s := by
  obtain ⟨e, r, d, i⟩ := s
  unfold statsSum at h
  simp only at h
  unfold main_pct percent_different_spec orOne statsSum
  dsimp only
  rw [if_neg h]
  rw [show max (e + r + d + i) 1 = e + r + d + i by omega]
  push_cast
  ring

/-- C4: the spec's derived metric (with the total clamped to 1, hence `0` on
the all-zero summary arising from two empty sequences) and the computation of
`main` (lines 184-186) disagree on that summary: `main` clamps the total to 1
*before* computing `changed = total - equal`, so it reports `100` where the
claim says the metric is `0`.  On every summary with a nonzero total the two
agree (`main_pct_eq_spec_of_total_ne_zero`). -/
theorem C4_percent_zero_total_bug :
    main_pct (Stats.mk 0 0 0 0) = 100 ∧ percent_different_spec (Stats.mk 0 0 0 0) = 0 := by
  constructor
  · norm_num [main_pct, statsSum, orOne]
  · norm_num [percent_different_spec, statsSum]

/-- C7: the engine is total over its embedded domain, and for the empty edge
cases: `A = []` with `B` nonempty yields the single span
`("insert", 0, 0, 0, len B)` with summary `{0, 0, 0, len B}` and percent `100`;
symmetrically `B = []` with `A` nonempty yields the single span
`("delete", 0, len A, 0, 0)` with summary `{0, 0, len A, 0}` and percent `100`;
two empty sequences yield no spans at all. -/
theorem C7_empty_edge_cases :
    (∀ B : List String, B ≠ [] →
      get_opcodes false ([] : List String) B = [(Tag.insert, 0, 0, 0, B.length)] ∧
        difference_summary [] B = Stats.mk 0 0 0 B.length ∧
        main_pct (difference_summary [] B) = 100) ∧
      (∀ A : List String, A ≠ [] →
        get_opcodes false A ([] : List String) = [(Tag.delete, 0, A.length, 0, 0)] ∧
          difference_summary A [] = Stats.mk 0 0 A.length 0 ∧
          main_pct (difference_summary A []) = 100) ∧
      get_opcodes false ([] : List String) ([] : List String) = [] := by
  refine ⟨?_, ?_, rfl⟩
  · rintro B hB
    obtain ⟨y, ys, rfl⟩ := List.exists_cons_of_ne_nil hB
    have hops := get_opcodes_nil_left false y ys
    have hsum : difference_summary [] (y :: ys) = Stats.mk 0 0 0 (y :: ys).length := by
      unfold difference_summary
      rw [hops]
      simp [statsStep]
    refine ⟨hops, hsum, ?_⟩
    rw [hsum]
    unfold main_pct statsSum orOne
    dsimp only
    rw [if_neg (by simp : ¬ (0 + 0 + 0 + (y :: ys).length = 0))]
    have hne : ((0 + 0 + 0 + (y :: ys).length : ℕ) : ℚ) ≠ 0 :=
      Nat.cast_ne_zero.mpr (by simp)
    field_simp
  · rintro A hA
    obtain ⟨x, xs, rfl⟩ := List.exists_cons_of_ne_nil hA
    have hops := get_opcodes_nil_right false x xs
    have hsum : difference_summary (x :: xs) [] = Stats.mk 0 0 (x :: xs).length 0 := by
      unfold difference_summary
      rw [hops]
      simp [statsStep]
    refine ⟨hops, hsum, ?_⟩
    rw [hsum]
    unfold main_pct statsSum orOne
    dsimp only
    rw [if_neg (by simp : ¬ (0 + 0 + (x :: xs).length + 0 = 0))]
    have hne : ((0 + 0 + (x :: xs).length + 0 : ℕ) : ℚ) ≠ 0 :=
      Nat.cast_ne_zero.mpr (by simp)
    field_simp

/-! ## Comparing a sequence with itself -/

theorem b2j_noaj (b : List α) (x : α) : b2j false b x = b2jRaw b x := by
  unfold b2j popular
  simp

theorem b2jRaw_sorted (b : List α) (x : α) : (b2jRaw b x).Pairwise (· < ·) :=
  List.Pairwise.sublist (List.filter_sublist _) (List.pairwise_lt_range _)

theorem b2jRaw_mem {b : List α} {x : α} {j : Nat} (h : j ∈ b2jRaw b x) :
    j < b.length ∧ b.get? j = some x := by
  unfold b2jRaw at h
  simp only [List.mem_filter, List.mem_range, decide_eq_true_eq] at h
  exact h

theorem b2jRaw_self_mem {a : List α} {i : Nat} {x : α} (hi : i < a.length)
    (hx : a.get? i = some x) : i ∈ b2jRaw a x := by
  unfold b2jRaw
  simp only [List.mem_filter, List.mem_range, decide_eq_true_eq]
  exact ⟨hi, hx⟩

/-- After the diagonal entry of row `i` has fired (best `(0, 0, i+1)`), the
remaining positions `j > i` of the row cannot beat it. -/
theorem innerLoop_self_post (n i : Nat) (old : Nat → Nat)
    (hold : ∀ j, old j ≤ min i (j + 1)) :
    ∀ (js : List Nat) (new : Nat → Nat),
      (∀ j ∈ js, i < j ∧ j < n) →
      (∀ j, new j ≤ min (i + 1) (j + 1)) → new i = i + 1 →
      (innerLoop i 0 n old js new (FLMState.mk 0 0 (i + 1))).2 = FLMState.mk 0 0 (i + 1) ∧
        (∀ j, (innerLoop i 0 n old js new (FLMState.mk 0 0 (i + 1))).1 j
          ≤ min (i + 1) (j + 1)) ∧
        (innerLoop i 0 n old js new (FLMState.mk 0 0 (i + 1))).1 i = i + 1 := by
  intro js
  induction js with
  | nil =>
    intro new _ hnew hdiag
    exact ⟨rfl, hnew, hdiag⟩
  | cons j js ih =>
    intro new hmem hnew hdiag
    obtain ⟨hij, hjn⟩ := hmem j (by simp)
    have h1 : ¬ j < 0 := by omega
    have h2 : ¬ n ≤ j := by omega
    have hk : (if j = 0 then 0 else old (j - 1)) + 1 ≤ min (i + 1) (j + 1) := by
      by_cases hj0 : j = 0
      · omega
      · rw [if_neg hj0]
        have := hold (j - 1)
        omega
    have hnoup : ¬ (FLMState.mk 0 0 (i + 1)).bestsize < (if j = 0 then 0 else old (j - 1)) + 1 := by
      simp only []
      omega
    simp only [innerLoop, if_neg h1, if_neg h2, if_neg hnoup]
    apply ih
    · intro j' hj'
      exact hmem j' (by simp [hj'])
    · intro j'
      by_cases hj' : j' = j
      · rw [if_pos hj']
        omega
      · rw [if_neg hj']
        exact hnew j'
    · rw [if_neg (by omega : ¬ i = j)]
      exact hdiag

/-- Row `i` of the self-comparison: starting from best `(0, 0, i)`, the
diagonal position `j = i` extends the best to `(0, 0, i+1)` and nothing else
fires. -/
theorem innerLoop_self_main (n i : Nat) (hin : i < n) (old : Nat → Nat)
    (hold : ∀ j, old j ≤ min i (j + 1)) (hdiag : 1 ≤ i → old (i - 1) = i) :
    ∀ (js : List Nat) (new : Nat → Nat),
      js.Pairwise (· < ·) → (∀ j ∈ js, j < n) → i ∈ js →
      (∀ j, new j ≤ min (i + 1) (j + 1)) →
      (innerLoop i 0 n old js new (FLMState.mk 0 0 i)).2 = FLMState.mk 0 0 (i + 1) ∧
        (∀ j, (innerLoop i 0 n old js new (FLMState.mk 0 0 i)).1 j
          ≤ min (i + 1) (j + 1)) ∧
        (innerLoop i 0 n old js new (FLMState.mk 0 0 i)).1 i = i + 1 := by
  intro js
  induction js with
  | nil =>
    intro new _ _ hi _
    cases hi
  | cons j js ih =>
    intro new hpw hmem hi hnew
    have hjn : j < n := hmem j (by simp)
    have h1 : ¬ j < 0 := by omega
    have h2 : ¬ n ≤ j := by omega
    by_cases hj : j = i
    · subst hj
      have hkval : (if j = 0 then 0 else old (j - 1)) + 1 = j + 1 := by
        by_cases hj0 : j = 0
        · rw [if_pos hj0, hj0]
        · rw [if_neg hj0]
          rw [hdiag (by omega)]
      have hup : (FLMState.mk 0 0 j).bestsize < (if j = 0 then 0 else old (j - 1)) + 1 := by
        simp only []
        omega
      simp only [innerLoop, if_neg h1, if_neg h2, hkval]
      rw [if_pos (by omega : j < j + 1)]
      rw [show j + 1 - (j + 1) = 0 by omega]
      apply innerLoop_self_post n j old hold
      · intro j' hj'
        have hlt := (List.pairwise_cons.mp hpw).1 j' hj'
        exact ⟨hlt, hmem j' (by simp [hj'])⟩
      · intro j'
        by_cases hj' : j' = j
        · rw [if_pos hj', hj']
          omega
        · rw [if_neg hj']
          exact hnew j'
      · rw [if_pos rfl]
    · have hitail : i ∈ js := by
        rcases List.mem_cons.mp hi with h | h
        · omega
        · exact h
      have hji : j < i := (List.pairwise_cons.mp hpw).1 i hitail
      have hk : (if j = 0 then 0 else old (j - 1)) + 1 ≤ min (i + 1) (j + 1) := by
        by_cases hj0 : j = 0
        · rw [if_pos hj0]
          omega
        · rw [if_neg hj0]
          have := hold (j - 1)
          omega
      have hklei : (if j = 0 then 0 else old (j - 1)) + 1 ≤ i := by
        by_cases hj0 : j = 0
        · rw [if_pos hj0]
          omega
        · rw [if_neg hj0]
          have := hold (j - 1)
          omega
      have hnoup : ¬ (FLMState.mk 0 0 i).bestsize < (if j = 0 then 0 else old (j - 1)) + 1 := by
        simp only []
        omega
      simp only [innerLoop, if_neg h1, if_neg h2, if_neg hnoup]
      apply ih
      · exact (List.pairwise_cons.mp hpw).2
      · exact fun j' hj' => hmem j' (by simp [hj'])
      · exact hitail
      · intro j'
        by_cases hj' : j' = j
        · rw [if_pos hj', hj']
          omega
        · rw [if_neg hj']
          exact hnew j'

theorem flmOuter_self (a : List α) :
    ∀ (fuel i : Nat) (old : Nat → Nat),
      i + fuel = a.length →
      (∀ j, old j ≤ min i (j + 1)) → (1 ≤ i → old (i - 1) = i) →
      flmOuter false a a 0 a.length fuel i old (FLMState.mk 0 0 i)
        = FLMState.mk 0 0 a.length := by
  intro fuel
  induction fuel with
  | zero =>
    intro i old hfuel _ _
    simp only [flmOuter]
    rw [show i = a.length by omega]
  | succ fuel ih =>
    intro i old hfuel hold hdiag
    have hin : i < a.length := by omega
    obtain ⟨x, hx⟩ : ∃ x, a.get? i = some x := by
      rw [List.get?_eq_get hin]
      exact ⟨_, rfl⟩
    have hjs : b2jAt false a a i = b2jRaw a x := by
      unfold b2jAt
      rw [hx]
      exact b2j_noaj a x
    obtain ⟨hst, hbnd, hdg⟩ :=
      innerLoop_self_main a.length i hin old hold hdiag (b2jRaw a x) (fun _ => 0)
        (b2jRaw_sorted a x) (fun j hj => (b2jRaw_mem hj).1) (b2jRaw_self_mem hin hx)
        (fun j => by simp)
    simp only [flmOuter, hjs, hst]
    exact ih (i + 1) _ (by omega) (fun j => hbnd j)
      (fun _ => by simpa using hdg)

theorem find_longest_match_self (a : List α) :
    find_longest_match false a a 0 a.length 0 a.length
      = FLMState.mk 0 0 a.length := by
  unfold find_longest_match
  rw [Nat.sub_zero]
  rw [flmOuter_self a a.length 0 (fun _ => 0) (Nat.zero_add _) (fun j => by simp)
    (by omega)]
  simp [extendLeft, extendRight]

theorem get_opcodes_self (a : List α) (h : a ≠ []) :
    get_opcodes false a a = [(Tag.equal, 0, a.length, 0, a.length)] := by
  have hlen : a.length ≠ 0 := by
    simpa [List.length_eq_zero] using h
  have hmbr : mbrFuel false a a (a.length + a.length + 1) 0 a.length 0 a.length
      = [(0, 0, a.length)] := by
    simp only [mbrFuel, find_longest_match_self a]
    rw [if_neg hlen]
    rw [if_neg (by omega : ¬ ((0 : Nat) < 0 ∧ (0 : Nat) < 0))]
    rw [if_neg (by omega : ¬ (0 + a.length < a.length ∧ 0 + a.length < a.length))]
    simp
  have hblocks : get_matching_blocks false a a = [(0, 0, a.length), (a.length, a.length, 0)] := by
    unfold get_matching_blocks
    rw [hmbr]
    norm_num [collapseAux, hlen]
  unfold get_opcodes
  rw [hblocks]
  norm_num [opcodesAux, hlen]

theorem difference_summary_self (A : List String) :
    difference_summary A A = Stats.mk A.length 0 0 0 := by
  by_cases h : A = []
  · subst h
    rfl
  · unfold difference_summary
    rw [get_opcodes_self A h]
    simp [statsStep]

/-- C2 (amended): comparing a nonempty `A` with itself yields exactly one
`equal` span covering all of `A`, the summary `{equal: len A, 0, 0, 0}` and a
percent-different of `0`; for every `A` (including `[]`) the summary is
`{equal: len A, 0, 0, 0}`; but for `A = []` there are no spans at all (and
`main`'s percent computation even reports `100`), so the claim's "exactly one
equal span for every `A`" holds only for nonempty `A`. -/
theorem C2_self_comparison (A : List String) :
    (A ≠ [] →
      get_opcodes false A A = [(Tag.equal, 0, A.length, 0, A.length)] ∧
        main_pct (difference_summary A A) = 0) ∧
      difference_summary A A = Stats.mk A.length 0 0 0 ∧
      (A = [] → get_opcodes false A A = []) := by
  refine ⟨?_, difference_summary_self A, ?_⟩
  · intro h
    refine ⟨get_opcodes_self A h, ?_⟩
    rw [difference_summary_self A]
    unfold main_pct statsSum orOne
    dsimp only
    rw [if_neg (by simpa [List.length_eq_zero] using h :
      ¬ (A.length + 0 + 0 + 0 = 0))]
    norm_num
  · intro h
    subst h
    rfl

/-- Counterexample to C2 as stated: for `A = []` the comparison of `A` with
itself yields no span at all (not one `equal` span), and `main`'s derived
percent is `100`, not `0`. -/
theorem C2_self_comparison_empty :
    get_opcodes false ([] : List String) ([] : List String) = [] ∧
      (get_opcodes false ([] : List String) ([] : List String)).length = 0 ∧
      main_pct (difference_summary ([] : List String) []) = 100 := by
  have hds : difference_summary ([] : List String) [] = Stats.mk 0 0 0 0 := rfl
  refine ⟨rfl, rfl, ?_⟩
  rw [hds]
  norm_num [main_pct, statsSum, orOne]

/-- Witness for C2 at the spec's concrete scenario 1: `A = ["hello world"]`. -/
theorem C2_self_comparison_witness :
    get_opcodes false ["hello world"] ["hello world"] = [(Tag.equal, 0, 1, 0, 1)] ∧
      main_pct (difference_summary ["hello world"] ["hello world"]) = 0 := by
  have h := (C2_self_comparison ["hello world"]).1 (by simp)
  simpa using h

/-- Witness for C7 at the spec's concrete scenario 3:
`A = []`, `B = ["new line"]`. -/
theorem C7_empty_edge_cases_witness :
    get_opcodes false ([] : List String) ["new line"] = [(Tag.insert, 0, 0, 0, 1)] ∧
      difference_summary [] ["new line"] = Stats.mk 0 0 0 1 ∧
      main_pct (difference_summary [] ["new line"]) = 100 := by
  have h := C7_empty_edge_cases.1 ["new line"] (by simp)
  simpa using h

/-! ## Character-level facts for `normalize` -/

theorem space_toNat {c : Char} (h : isPySpace c = true) :
    c.toNat = 32 ∨ c.toNat = 9 ∨ c.toNat = 10 ∨ c.toNat = 11 ∨ c.toNat = 12 ∨
      c.toNat = 13 ∨ c.toNat = 28 ∨ c.toNat = 29 ∨ c.toNat = 30 ∨ c.toNat = 31 ∨
      c.toNat = 133 ∨ c.toNat = 160 ∨ c.toNat = 8232 ∨ c.toNat = 8233 := by
  simp only [isPySpace, pySpaceChars, List.mem_cons, List.not_mem_nil, or_false,
    decide_eq_true_eq] at h
  rcases h with rfl | rfl | rfl | rfl | rfl | rfl | rfl | rfl | rfl | rfl | rfl | rfl | rfl | rfl <;>
    decide

theorem not_space_of_range {c : Char}
    (h : (65 ≤ c.toNat ∧ c.toNat ≤ 90) ∨ (97 ≤ c.toNat ∧ c.toNat ≤ 122)) :
    isPySpace c = false := by
  cases hb : isPySpace c
  · rfl
  · have := space_toNat hb
    omega

theorem lowerChar_toNat_of_upper {c : Char} (h1 : 65 ≤ c.toNat) (h2 : c.toNat ≤ 90) :
    (lowerChar c).toNat = c.toNat + 32 := by
  unfold lowerChar
  rw [if_pos ⟨h1, h2⟩]
  unfold Char.ofNat
  rw [dif_pos (by constructor; omega : (c.toNat + 32).isValidChar)]
  rfl

theorem lowerChar_eq_of_not_upper {c : Char} (h : ¬ (65 ≤ c.toNat ∧ c.toNat ≤ 90)) :
    lowerChar c = c := by
  unfold lowerChar
  rw [if_neg h]

theorem lowerChar_idem (c : Char) : lowerChar (lowerChar c) = lowerChar c := by
  by_cases h : 65 ≤ c.toNat ∧ c.toNat ≤ 90
  · have hr := lowerChar_toNat_of_upper h.1 h.2
    exact lowerChar_eq_of_not_upper (by omega)
  · rw [lowerChar_eq_of_not_upper h, lowerChar_eq_of_not_upper h]

theorem isPySpace_lowerChar (c : Char) : isPySpace (lowerChar c) = isPySpace c := by
  by_cases h : 65 ≤ c.toNat ∧ c.toNat ≤ 90
  · have hr := lowerChar_toNat_of_upper h.1 h.2
    rw [not_space_of_range (Or.inr (by omega)), not_space_of_range (Or.inl h)]
  · rw [lowerChar_eq_of_not_upper h]

theorem boundary_space {c : Char} (h : isBoundary c = true) : isPySpace c = true := by
  simp only [isBoundary, boundaryChars, List.mem_cons, List.not_mem_nil, or_false,
    decide_eq_true_eq] at h
  rcases h with rfl | rfl | rfl | rfl | rfl | rfl | rfl | rfl | rfl | rfl <;> decide

/-! ## `splitlines`, `split` and `join` -/

theorem splitlinesAux_not_cr (c : Char) (cs acc : List Char) (h : ¬ c = '\r') :
    splitlinesAux (c :: cs) acc
      = if isBoundary c then acc.reverse :: splitlinesAux cs []
        else splitlinesAux cs (c :: acc) := by
  rw [splitlinesAux.eq_def]
  split
  · simp_all
  · simp_all
  · rename_i c2 cs2 heq
    simp only [List.cons.injEq] at heq
    obtain ⟨rfl, rfl⟩ := heq
    rfl

theorem splitlinesAux_no_boundary :
    ∀ (l r acc : List Char), (∀ c ∈ l, isBoundary c = false) →
      splitlinesAux (l ++ r) acc = splitlinesAux r (l.reverse ++ acc) := by
  intro l
  induction l with
  | nil => intro r acc _; simp
  | cons c l' ih =>
    intro r acc h
    have hc : isBoundary c = false := h c (by simp)
    have hcr : ¬ c = '\r' := by
      intro hcc
      subst hcc
      simp [isBoundary, boundaryChars] at hc
    rw [List.cons_append, splitlinesAux_not_cr c _ acc hcr]
    rw [if_neg (by simp [hc])]
    rw [ih r (c :: acc) (fun c' h' => h c' (by simp [h']))]
    simp

theorem splitWsAux_words :
    ∀ (s acc : List Char), (∀ c ∈ acc, isPySpace c = false) →
      ∀ w ∈ splitWsAux s acc, w ≠ [] ∧ ∀ c ∈ w, isPySpace c = false := by
  intro s
  induction s with
  | nil =>
    intro acc hacc w hw
    simp only [splitWsAux] at hw
    split at hw
    · cases hw
    · rename_i hne
      simp only [List.mem_singleton] at hw
      subst hw
      refine ⟨by simpa using hne, ?_⟩
      intro c hc
      exact hacc c (by simpa using hc)
  | cons c cs ih =>
    intro acc hacc w hw
    simp only [splitWsAux] at hw
    split at hw
    · split at hw
      · exact ih [] (by simp) w hw
      · rename_i hsp hne
        rcases List.mem_cons.mp hw with rfl | hw2
        · refine ⟨by simpa using hne, ?_⟩
          intro c' hc'
          exact hacc c' (by simpa using hc')
        · exact ih [] (by simp) w hw2
    · rename_i hsp
      refine ih (c :: acc) ?_ w hw
      intro c' hc'
      rcases List.mem_cons.mp hc' with rfl | h2
      · simpa using hsp
      · exact hacc c' h2

theorem pysplit_words (s : List Char) :
    ∀ w ∈ pysplit s, w ≠ [] ∧ ∀ c ∈ w, isPySpace c = false :=
  splitWsAux_words s [] (by simp)

theorem splitWsAux_no_space_run :
    ∀ (w r acc : List Char), (∀ c ∈ w, isPySpace c = false) →
      splitWsAux (w ++ r) acc = splitWsAux r (w.reverse ++ acc) := by
  intro w
  induction w with
  | nil => intro r acc _; simp
  | cons c w' ih =>
    intro r acc hw
    have hc : isPySpace c = false := hw c (by simp)
    rw [List.cons_append]
    show (if isPySpace c = true then _ else splitWsAux (w' ++ r) (c :: acc)) = _
    rw [if_neg (by simp [hc])]
    rw [ih r (c :: acc) (fun c' hc' => hw c' (by simp [hc']))]
    simp

theorem pyjoin_nil (sep : List Char) : pyjoin sep [] = [] := rfl

theorem pyjoin_single (sep : List Char) (w : List Char) : pyjoin sep [w] = w := rfl

theorem pyjoin_cons₂ (sep : List Char) (w w2 : List Char) (ws : List (List Char)) :
    pyjoin sep (w :: w2 :: ws) = w ++ sep ++ pyjoin sep (w2 :: ws) := rfl

theorem splitWsAux_cons_eq (c : Char) (cs acc : List Char) :
    splitWsAux (c :: cs) acc
      = if isPySpace c = true then
          (if acc = [] then splitWsAux cs [] else acc.reverse :: splitWsAux cs [])
        else splitWsAux cs (c :: acc) := rfl

theorem pysplit_single (w : List Char) (hne : w ≠ [])
    (hsp : ∀ c ∈ w, isPySpace c = false) : pysplit w = [w] := by
  have h2 : splitWsAux w [] = splitWsAux [] (w.reverse ++ []) := by
    simpa using splitWsAux_no_space_run w [] [] hsp
  unfold pysplit
  rw [h2]
  simp [splitWsAux, hne]

theorem pysplit_join (ws : List (List Char))
    (h : ∀ w ∈ ws, w ≠ [] ∧ ∀ c ∈ w, isPySpace c = false) :
    pysplit (joinSp ws) = ws := by
  induction ws with
  | nil => rfl
  | cons w ws' ih =>
    cases ws' with
    | nil =>
      show pysplit (pyjoin [' '] [w]) = [w]
      rw [pyjoin_single]
      exact pysplit_single w (h w (by simp)).1 (h w (by simp)).2
    | cons w2 ws'' =>
      show pysplit (pyjoin [' '] (w :: w2 :: ws'')) = _
      rw [pyjoin_cons₂]
      unfold pysplit
      rw [List.append_assoc, List.singleton_append]
      rw [splitWsAux_no_space_run w _ [] (h w (by simp)).2]
      rw [splitWsAux_cons_eq]
      rw [if_pos (by decide : isPySpace ' ' = true)]
      rw [if_neg (by simp [(h w (by simp)).1] : ¬ (w.reverse ++ [] : List Char) = [])]
      have hrec := ih (fun w' hw' => h w' (by simp [hw']))
      unfold pysplit joinSp at hrec
      rw [show ((w.reverse ++ [] : List Char)).reverse = w by simp]
      rw [hrec]

theorem joinSp_ne_nil (w : List Char) (ws : List (List Char)) (h : w ≠ []) :
    joinSp (w :: ws) ≠ [] := by
  cases ws with
  | nil => simpa [joinSp, pyjoin_single] using h
  | cons w2 ws' =>
    show pyjoin [' '] (w :: w2 :: ws') ≠ []
    rw [pyjoin_cons₂]
    simp

theorem joinSp_head (w : List Char) (ws : List (List Char)) (hne : w ≠ []) :
    (joinSp (w :: ws)).head? = w.head? := by
  obtain ⟨c, w', rfl⟩ := List.exists_cons_of_ne_nil hne
  cases ws with
  | nil => rfl
  | cons w2 ws' => rfl

theorem joinSp_getLast (ws : List (List Char)) (h : ∀ w ∈ ws, w ≠ []) :
    ∀ c, (joinSp ws).getLast? = some c → ∃ w ∈ ws, w.getLast? = some c := by
  induction ws with
  | nil =>
    intro c hc
    simp [joinSp, pyjoin_nil] at hc
  | cons w ws' ih =>
    cases ws' with
    | nil =>
      intro c hc
      exact ⟨w, by simp, hc⟩
    | cons w2 ws'' =>
      intro c hc
      rw [show joinSp (w :: w2 :: ws'') = (w ++ [' ']) ++ joinSp (w2 :: ws'') from rfl] at hc
      rw [List.getLast?_append_of_ne_nil _ (joinSp_ne_nil w2 ws'' (h w2 (by simp)))] at hc
      obtain ⟨w3, hw3, hlast⟩ := ih (fun w' hw' => h w' (by simp [hw'])) c hc
      exact ⟨w3, by simp [hw3], hlast⟩

theorem joinSp_mem (ws : List (List Char)) :
    ∀ c ∈ joinSp ws, (∃ w ∈ ws, c ∈ w) ∨ c = ' ' := by
  induction ws with
  | nil =>
    intro c hc
    simp [joinSp, pyjoin_nil] at hc
  | cons w ws' ih =>
    cases ws' with
    | nil =>
      intro c hc
      exact Or.inl ⟨w, by simp, hc⟩
    | cons w2 ws'' =>
      intro c hc
      rw [show joinSp (w :: w2 :: ws'') = (w ++ [' ']) ++ joinSp (w2 :: ws'') from rfl] at hc
      rcases List.mem_append.mp hc with hc1 | hc2
      · rcases List.mem_append.mp hc1 with hw | hsep
        · exact Or.inl ⟨w, by simp, hw⟩
        · simp only [List.mem_singleton] at hsep
          exact Or.inr hsep
      · rcases ih c hc2 with ⟨w3, h3, hc3⟩ | hsp
        · exact Or.inl ⟨w3, by simp [h3], hc3⟩
        · exact Or.inr hsp

theorem dropWhile_eq_self_of_head (s : List Char)
    (h : ∀ c, s.head? = some c → isPySpace c = false) :
    s.dropWhile isPySpace = s := by
  cases s with
  | nil => rfl
  | cons c cs =>
    rw [List.dropWhile_cons]
    rw [if_neg (by simp [h c rfl])]

theorem pystrip_eq_self (s : List Char)
    (h1 : ∀ c, s.head? = some c → isPySpace c = false)
    (h2 : ∀ c, s.getLast? = some c → isPySpace c = false) :
    pystrip s = s := by
  unfold pystrip
  rw [dropWhile_eq_self_of_head s h1]
  rw [dropWhile_eq_self_of_head s.reverse
    (by intro c hc; apply h2; rwa [List.head?_reverse] at hc)]
  simp

theorem pylower_join (ws : List (List Char)) :
    pylower (joinSp ws) = joinSp (ws.map pylower) := by
  induction ws with
  | nil => rfl
  | cons w ws' ih =>
    cases ws' with
    | nil => rfl
    | cons w2 ws'' =>
      show pylower (pyjoin [' '] (w :: w2 :: ws'')) = pyjoin [' '] ((w :: w2 :: ws'').map pylower)
      rw [pyjoin_cons₂, List.map_cons, List.map_cons, pyjoin_cons₂]
      unfold pylower
      rw [List.map_append, List.map_append]
      rw [show ([' '] : List Char).map lowerChar = [' '] from by decide]
      congr 1

theorem pylower_pylower (s : List Char) : pylower (pylower s) = pylower s := by
  unfold pylower
  rw [List.map_map]
  apply List.map_congr_left
  intro c _
  exact lowerChar_idem c

theorem chain_of_no_space (w : List Char) (h : ∀ c ∈ w, isPySpace c = false) :
    w.Chain' (fun x y => ¬ (isPySpace x = true ∧ isPySpace y = true)) := by
  induction w with
  | nil => exact List.chain'_nil
  | cons c w' ih =>
    rw [List.chain'_cons']
    constructor
    · intro y _
      simp [h c (by simp)]
    · exact ih (fun c' hc' => h c' (by simp [hc']))

theorem joinSp_chain (ws : List (List Char))
    (h : ∀ w ∈ ws, w ≠ [] ∧ ∀ c ∈ w, isPySpace c = false) :
    (joinSp ws).Chain' (fun x y => ¬ (isPySpace x = true ∧ isPySpace y = true)) := by
  induction ws with
  | nil => exact List.chain'_nil
  | cons w ws' ih =>
    cases ws' with
    | nil => exact chain_of_no_space w (h w (by simp)).2
    | cons w2 ws'' =>
      rw [show joinSp (w :: w2 :: ws'') = (w ++ [' ']) ++ joinSp (w2 :: ws'') from rfl]
      rw [List.chain'_append]
      refine ⟨?_, ih (fun w' hw' => h w' (by simp [hw'])), ?_⟩
      · rw [List.chain'_append]
        refine ⟨chain_of_no_space w (h w (by simp)).2, List.chain'_singleton _, ?_⟩
        intro x hx y hy
        have hxw : x ∈ w := List.mem_of_mem_getLast? hx
        simp [(h w (by simp)).2 x hxw]
      · intro x hx y hy
        rw [joinSp_head w2 ws'' (h w2 (by simp)).1] at hy
        have hyw : y ∈ w2 := List.mem_of_mem_head? hy
        simp [(h w2 (by simp)).2 y hyw]

/-! ## Structure of `normalize`'s output -/

theorem normalize_eq_map_filter (t : List Char) :
    normalize t = ((splitlines t).map cleanLine).filter (fun l => decide (l ≠ [])) := by
  unfold normalize
  generalize splitlines t = ls
  induction ls with
  | nil => rfl
  | cons raw ls' ih =>
    rw [List.filterMap_cons, List.map_cons, List.filter_cons]
    by_cases h : joinSp (pysplit (pystrip raw)) = []
    · rw [if_pos h]
      have hclean : cleanLine raw = [] := by
        unfold cleanLine
        rw [h]
        rfl
      rw [hclean]
      simpa using ih
    · rw [if_neg h]
      have hclean : cleanLine raw ≠ [] := by
        unfold cleanLine pylower
        simpa using h
      rw [if_pos (by simpa using hclean)]
      rw [ih]
      rfl

theorem normalize_mem (t : List Char) :
    ∀ l ∈ normalize t, ∃ ws : List (List Char),
      (∀ w ∈ ws, w ≠ [] ∧ ∀ c ∈ w, isPySpace c = false) ∧
        ws ≠ [] ∧ l = pylower (joinSp ws) := by
  intro l hl
  unfold normalize at hl
  rw [List.mem_filterMap] at hl
  obtain ⟨raw, _, hraw⟩ := hl
  dsimp only at hraw
  by_cases h : joinSp (pysplit (pystrip raw)) = []
  · rw [if_pos h] at hraw
    cases hraw
  · rw [if_neg h] at hraw
    refine ⟨pysplit (pystrip raw), pysplit_words _, ?_, (Option.some.injEq _ _ ▸ hraw).symm⟩
    intro hws
    exact h (by rw [hws]; rfl)

/-- C8: `normalize` splits its input on line boundaries and maps each line
through the per-line transform (trim, collapse whitespace runs, lowercase),
keeping — in their original relative order — exactly the lines that did not
become empty.  Every surviving line is nonempty, consists of lowercase-stable
characters, contains no whitespace other than single `' '` separators (no
leading or trailing whitespace, no two adjacent whitespace characters). -/
theorem C8_normalize_lines (t : List Char) :
    normalize t = ((splitlines t).map cleanLine).filter (fun l => decide (l ≠ [])) ∧
      ∀ l ∈ normalize t,
        l ≠ [] ∧
          (∀ c ∈ l, lowerChar c = c) ∧
          (∀ c ∈ l, isPySpace c = true → c = ' ') ∧
          (∀ c, l.head? = some c → isPySpace c = false) ∧
          (∀ c, l.getLast? = some c → isPySpace c = false) ∧
          l.Chain' (fun x y => ¬ (isPySpace x = true ∧ isPySpace y = true)) := by
  refine ⟨normalize_eq_map_filter t, ?_⟩
  intro l hl
  obtain ⟨ws, hws, hne, rfl⟩ := normalize_mem t l hl
  obtain ⟨w1, ws', rfl⟩ := List.exists_cons_of_ne_nil hne
  refine ⟨?_, ?_, ?_, ?_, ?_, ?_⟩
  · unfold pylower
    simpa using joinSp_ne_nil w1 ws' (hws w1 (by simp)).1
  · intro c hc
    obtain ⟨c0, _, rfl⟩ := List.mem_map.mp hc
    exact lowerChar_idem c0
  · intro c hc hsp
    obtain ⟨c0, hc0, rfl⟩ := List.mem_map.mp hc
    rcases joinSp_mem _ c0 hc0 with ⟨w3, hw3, hcw⟩ | rfl
    · rw [isPySpace_lowerChar, (hws w3 hw3).2 c0 hcw] at hsp
      cases hsp
    · decide
  · intro c hc
    rw [show pylower (joinSp (w1 :: ws')) = (joinSp (w1 :: ws')).map lowerChar from rfl] at hc
    rw [List.head?_map, joinSp_head w1 ws' (hws w1 (by simp)).1] at hc
    obtain ⟨c0, hc0, rfl⟩ := Option.map_eq_some'.mp hc
    rw [isPySpace_lowerChar]
    exact (hws w1 (by simp)).2 c0 (List.mem_of_mem_head? hc0)
  · intro c hc
    rw [show pylower (joinSp (w1 :: ws')) = (joinSp (w1 :: ws')).map lowerChar from rfl] at hc
    rw [List.getLast?_map] at hc
    obtain ⟨c0, hc0, rfl⟩ := Option.map_eq_some'.mp hc
    obtain ⟨w3, hw3, hlast⟩ := joinSp_getLast (w1 :: ws') (fun w' hw' => (hws w' hw').1) c0 hc0
    rw [isPySpace_lowerChar]
    exact (hws w3 hw3).2 c0 (List.mem_of_mem_getLast? hlast)
  · rw [show pylower (joinSp (w1 :: ws')) = (joinSp (w1 :: ws')).map lowerChar from rfl]
    rw [List.chain'_map]
    apply List.Chain'.imp ?_ (joinSp_chain (w1 :: ws') hws)
    intro a b hab
    rw [isPySpace_lowerChar, isPySpace_lowerChar]
    exact hab

/-- Witness for C8 on the concrete text `"A  Bc"`, whose normalization is the
single line `"a bc"`. -/
theorem C8_normalize_lines_witness :
    (['a', ' ', 'b', 'c'] : List Char) ≠ [] ∧
      (∀ c ∈ (['a', ' ', 'b', 'c'] : List Char), lowerChar c = c) ∧
      (∀ c ∈ (['a', ' ', 'b', 'c'] : List Char), isPySpace c = true → c = ' ') ∧
      (∀ c, (['a', ' ', 'b', 'c'] : List Char).head? = some c → isPySpace c = false) ∧
      (∀ c, (['a', ' ', 'b', 'c'] : List Char).getLast? = some c → isPySpace c = false) ∧
      (['a', ' ', 'b', 'c'] : List Char).Chain'
        (fun x y => ¬ (isPySpace x = true ∧ isPySpace y = true)) :=
  (C8_normalize_lines ['A', ' ', ' ', 'B', 'c']).2 ['a', ' ', 'b', 'c'] (by decide)

/-! ## Idempotence of `normalize` -/

theorem cleanLine_of_words (ws : List (List Char))
    (h : ∀ w ∈ ws, w ≠ [] ∧ ∀ c ∈ w, isPySpace c = false) :
    cleanLine (pylower (joinSp ws)) = pylower (joinSp ws) := by
  cases ws with
  | nil => rfl
  | cons w ws' =>
    have hmap : ∀ w' ∈ (w :: ws').map pylower, w' ≠ [] ∧ ∀ c ∈ w', isPySpace c = false := by
      intro w' hw'
      obtain ⟨w0, hw0, rfl⟩ := List.mem_map.mp hw'
      obtain ⟨h1, h2⟩ := h w0 hw0
      constructor
      · simpa [pylower] using h1
      · intro c hc
        obtain ⟨c0, hc0, rfl⟩ := List.mem_map.mp hc
        rw [isPySpace_lowerChar]
        exact h2 c0 hc0
    have hstrip : pystrip (pylower (joinSp (w :: ws'))) = pylower (joinSp (w :: ws')) := by
      apply pystrip_eq_self
      · intro c hc
        rw [show pylower (joinSp (w :: ws')) = (joinSp (w :: ws')).map lowerChar from rfl] at hc
        rw [List.head?_map, joinSp_head w ws' (h w (by simp)).1] at hc
        obtain ⟨c0, hc0, rfl⟩ := Option.map_eq_some'.mp hc
        rw [isPySpace_lowerChar]
        exact (h w (by simp)).2 c0 (List.mem_of_mem_head? hc0)
      · intro c hc
        rw [show pylower (joinSp (w :: ws')) = (joinSp (w :: ws')).map lowerChar from rfl] at hc
        rw [List.getLast?_map] at hc
        obtain ⟨c0, hc0, rfl⟩ := Option.map_eq_some'.mp hc
        obtain ⟨w3, hw3, hlast⟩ := joinSp_getLast (w :: ws') (fun w' hw' => (h w' hw').1) c0 hc0
        rw [isPySpace_lowerChar]
        exact (h w3 hw3).2 c0 (List.mem_of_mem_getLast? hlast)
    unfold cleanLine
    rw [hstrip]
    rw [pylower_join (w :: ws')]
    rw [pysplit_join ((w :: ws').map pylower) hmap]
    rw [← pylower_join (w :: ws')]
    exact pylower_pylower _

theorem filterMap_fixed {β : Type} (f : β → Option β) :
    ∀ (ls : List β), (∀ x ∈ ls, f x = some x) → ls.filterMap f = ls := by
  intro ls
  induction ls with
  | nil => intro _; rfl
  | cons x xs ih =>
    intro h
    rw [List.filterMap_cons, h x (by simp), ih (fun y hy => h y (by simp [hy]))]

theorem splitlines_join (ls : List (List Char))
    (h : ∀ l ∈ ls, l ≠ [] ∧ ∀ c ∈ l, isBoundary c = false) :
    splitlines (pyjoin ['\n'] ls) = ls := by
  induction ls with
  | nil => rfl
  | cons l ls' ih =>
    cases ls' with
    | nil =>
      show splitlinesAux (pyjoin ['\n'] [l]) [] = [l]
      rw [pyjoin_single]
      have hrun := splitlinesAux_no_boundary l [] [] (h l (by simp)).2
      rw [List.append_nil] at hrun
      rw [hrun]
      simp only [splitlinesAux]
      rw [if_neg (by simp [(h l (by simp)).1])]
      simp
    | cons l2 ls'' =>
      show splitlinesAux (pyjoin ['\n'] (l :: l2 :: ls'')) [] = l :: l2 :: ls''
      rw [pyjoin_cons₂, List.append_assoc, List.singleton_append]
      rw [splitlinesAux_no_boundary l _ [] (h l (by simp)).2]
      rw [splitlinesAux_not_cr '\n' _ _ (by decide)]
      rw [if_pos (by decide : isBoundary '\n' = true)]
      have ih' := ih (fun l' h' => h l' (by simp [h']))
      unfold splitlines at ih'
      rw [ih']
      simp

/-- C9: normalization is idempotent — rejoining the lines of `normalize t`
with `"\n"` and normalizing again yields the same sequence. -/
theorem C9_normalize_idempotent (t : List Char) :
    normalize (pyjoin ['\n'] (normalize t)) = normalize t := by
  have hlines : ∀ l ∈ normalize t, l ≠ [] ∧ ∀ c ∈ l, isBoundary c = false := by
    intro l hl
    obtain ⟨ws, hws, hne, rfl⟩ := normalize_mem t l hl
    obtain ⟨w1, ws', rfl⟩ := List.exists_cons_of_ne_nil hne
    constructor
    · unfold pylower
      simpa using joinSp_ne_nil w1 ws' (hws w1 (by simp)).1
    · intro c hc
      cases hb : isBoundary c
      · rfl
      · exfalso
        have hsp : isPySpace c = true := boundary_space hb
        obtain ⟨c0, hc0, rfl⟩ := List.mem_map.mp hc
        rcases joinSp_mem _ c0 hc0 with ⟨w3, hw3, hcw⟩ | rfl
        · rw [isPySpace_lowerChar, (hws w3 hw3).2 c0 hcw] at hsp
          cases hsp
        · rw [show lowerChar ' ' = ' ' from by decide] at hb
          exact absurd hb (by decide)
  have hfix : ∀ l ∈ normalize t,
      (fun raw =>
        let s := joinSp (pysplit (pystrip raw))
        if s = [] then none else some (pylower s)) l = some l := by
    intro l hl
    obtain ⟨ws, hws, hne, rfl⟩ := normalize_mem t l hl
    have hclean := cleanLine_of_words ws hws
    dsimp only
    have hs : pylower (joinSp (pysplit (pystrip (pylower (joinSp ws)))))
        = pylower (joinSp ws) := hclean
    have hsne : joinSp (pysplit (pystrip (pylower (joinSp ws)))) ≠ [] := by
      intro h0
      have hres : pylower (joinSp ws) = [] := by
        rw [← hs, h0]
        rfl
      obtain ⟨w1, ws', rfl⟩ := List.exists_cons_of_ne_nil hne
      exact absurd (by simpa [pylower] using hres)
        (joinSp_ne_nil w1 ws' (hws w1 (by simp)).1)
    rw [if_neg hsne, hs]
  calc normalize (pyjoin ['\n'] (normalize t))
      = (splitlines (pyjoin ['\n'] (normalize t))).filterMap (fun raw =>
          let s := joinSp (pysplit (pystrip raw))
          if s = [] then none else some (pylower s)) := rfl
    _ = (normalize t).filterMap (fun raw =>
          let s := joinSp (pysplit (pystrip raw))
          if s = [] then none else some (pylower s)) := by
        rw [splitlines_join (normalize t) hlines]
    _ = normalize t := filterMap_fixed _ (normalize t) hfix

end DiffSpec
